import Mathlib

/-!  Verification development for the pedigree-aware phasing dynamic
programming engine of pedigreedptable.cpp.

The engine's external collaborators (the ColumnIndexingScheme gray-code
iterator, the PedigreeColumnCostComputer, the ReadSet and the Pedigree)
are not part of the given sources; where a claim depends on them they are
modelled from the spec, as documented on each such definition.  Everything
else is translated from pedigreedptable.cpp.

Machine integers: costs are C++ unsigned int values.  They are modelled as
Nat, with an explicit reduction modulo 2 ^ 32 exactly where the C++
performs unsigned arithmetic that can wrap, and with the value
2 ^ 32 - 1 (numeric_limits<unsigned int>::max()) playing the role of the
infinity sentinel. -/

/-- The C++ value numeric_limits<unsigned int>::max(), used by the engine as
the infinity sentinel on costs. -/
def UINT_MAX : Nat := 2 ^ 32 - 1

/-- Fuel-driven helper for popcount.  The fuel is an upper bound on the
number of halvings (the argument itself suffices), keeping the recursion
structural so that concrete values reduce in the kernel. -/
def popcountFuel : Nat → Nat → Nat
  | 0, _ => 0
  | _ + 1, 0 => 0
  | fuel + 1, x => x % 2 + popcountFuel fuel (x / 2)

/-- PedigreeDPTable::popcount (lines 70-76): counts the bits set in x by
repeated shifting. -/
def popcount (x : Nat) : Nat := popcountFuel x x

/-- Helper for isqrt: the largest m at most the first argument whose square
is at most n, found by counting down. -/
def isqrtDown : Nat → Nat → Nat
  | 0, _ => 0
  | m + 1, n => if (m + 1) * (m + 1) ≤ n then m + 1 else isqrtDown m n

/-- Floor of the square root, modelling (size_t)sqrt(column_count) in
compute_table (line 168). -/
def isqrt (n : Nat) : Nat := isqrtDown n n

/-- A Vector2D<unsigned int> is modelled as a total function on
coordinates. -/
abbrev Tbl := Nat → Nat → Nat

/-- A Vector2D freshly filled with one value. -/
def constTbl (v : Nat) : Tbl := fun _ _ => v

/-- Vector2D::set on the functional table model. -/
def tblSet (t : Tbl) (a b v : Nat) : Tbl :=
  fun x y => if x = a ∧ y = b then v else t x y

/-- One candidate cost of the inner relaxation of
PedigreeDPTable::compute_column (lines 376-394): if either the current cost
or the previous cost is the MAX sentinel the value is the sentinel,
otherwise the two are added as C++ unsigned ints (wrapping modulo 2 ^ 32);
then, whenever the intermediate value is below the sentinel, the
recombination term pc * rc is added, again wrapping modulo 2 ^ 32.
(The second addition is performed in size_t in the C++ and converted back
to unsigned int; for the value ranges reachable there - pc a popcount and
rc an unsigned int - that conversion is exactly the reduction modulo
2 ^ 32 used here.) -/
def candidateVal (previous_cost current_cost pc rc : Nat) : Nat :=
  let val : Nat :=
    if current_cost < UINT_MAX ∧ previous_cost < UINT_MAX then
      (current_cost + previous_cost) % 2 ^ 32
    else UINT_MAX
  if val < UINT_MAX then (val + pc * rc) % 2 ^ 32 else val

/-- Modelled from the spec: the candidate combination with genuinely
infinity-saturating arithmetic, in which the candidate is the sentinel
whenever the exact sum would reach or exceed the sentinel, and the exact
sum otherwise.  This is the comparison definition for the refinement
claim about the engine's cost arithmetic; the engine itself uses
candidateVal above. -/
def candidateSaturating (previous_cost current_cost pc rc : Nat) : Nat :=
  if UINT_MAX ≤ previous_cost + current_cost + pc * rc then UINT_MAX
  else previous_cost + current_cost + pc * rc

/-- Modelled from the spec: the per-column interface the engine consumes
from its collaborators.  walk is the sequence of partitioning indices
visited by the ColumnIndexingScheme gray-code iterator (each step of the
C++ iterator reports its current index, forward projection and backward
projection); fwd and bwd are the per-index forward and backward
projections; cost i h is the value of cost_computers[i].get_cost() when
the computers have been walked to partitioning index h (the computers are
deterministic in the reached partitioning, whether it was reached by
update_partitioning deltas or by set_partitioning). -/
structure ColumnInput where
  walk : List Nat
  fwd : Nat → Nat
  bwd : Nat → Nat
  cost : Nat → Nat → Nat

/-- Placeholder column used for out-of-range accesses that the C++ never
performs. -/
def defaultColumn : ColumnInput := ⟨[], fun _ => 0, fun _ => 0, fun _ _ => 0⟩

/-- The inputs of a PedigreeDPTable run along the compute_table path. -/
structure DPInput where
  triple_count : Nat
  recombcost : List Nat
  cols : List ColumnInput

/-- Number of columns (input_column_iterator.get_column_count()). -/
def DPInput.colCount (inp : DPInput) : Nat := inp.cols.length

/-- transmission_configurations = pow(4, pedigree->triple_count())
(line 293). -/
def DPInput.T (inp : DPInput) : Nat := 4 ^ inp.triple_count

/-- The column interface for column c. -/
def DPInput.colAt (inp : DPInput) (c : Nat) : ColumnInput :=
  inp.cols.getD c defaultColumn

/-- recombcost[c]. -/
def DPInput.rcAt (inp : DPInput) (c : Nat) : Nat := inp.recombcost.getD c 0

/-- The checkpoint stride k = (size_t)sqrt(column_count) (line 168). -/
def DPInput.k (inp : DPInput) : Nat := isqrt inp.colCount

/-- The running optimum tracked by the engine: optimal_score,
optimal_score_index, optimal_transmission_value,
previous_transmission_value. -/
structure OptState where
  score : Nat
  index : Nat
  tv : Nat
  ptv : Nat
deriving Repr, DecidableEq

/-- The state threaded through one column's iterator walk: the forward
projection column and its two backtrace columns (all initialized to the
sentinel, lines 316-330) plus the running optimum. -/
structure ColSweep where
  proj : Tbl
  ibt : Tbl
  tbt : Tbl
  opt : OptState

/-- The inner j loop of compute_column (lines 371-401): the minimum over
predecessor transmission values j < T of the candidate cost, together with
its argmin (ties keep the first strictly smaller j; the initial minimum is
the sentinel with index 0). -/
def minOverJ (T : Nat) (prevRow : Nat → Nat) (current_cost : Nat) (i rc : Nat) :
    Nat × Nat :=
  (List.range T).foldl
    (fun acc j =>
      let val := candidateVal (prevRow j) current_cost (popcount (Nat.xor i j)) rc
      if val < acc.1 then (val, j) else acc)
    (UINT_MAX, 0)

/-- The found_valid_transmission_vector flag of compute_column
(lines 367-375): true when some transmission configuration i < T yields a
current cost below the sentinel at the visited index. -/
def goodIndexB (T : Nat) (col : ColumnInput) (h : Nat) : Bool :=
  (List.range T).any (fun i => col.cost i h < UINT_MAX)

/-- One iterator step of compute_column (lines 343-431) at visited index h.
The dp column cell written for (h, i) is read back only within the same
step, so it is kept local here as minOverJ's value instead of in a stored
table.  If no transmission configuration has a finite current cost, the
Mendelian conflict error is raised (lines 405-407).  On the last column
the running optimum is updated (lines 410-419); otherwise the forward
projection and backtrace columns are relaxed (lines 420-430). -/
def stepIndex (T : Nat) (isFirst isLast : Bool) (prevProj : Tbl)
    (col : ColumnInput) (rc : Nat) (st : ColSweep) (h : Nat) :
    Except Unit ColSweep :=
  let bpi := if isFirst then 0 else col.bwd h
  let prevRow : Nat → Nat := fun j => if isFirst then 0 else prevProj bpi j
  if goodIndexB T col h then
    if isLast then
      Except.ok { st with
        opt := (List.range T).foldl
          (fun o i =>
            let m := minOverJ T prevRow (col.cost i h) i rc
            if m.1 < o.score then ⟨m.1, h, i, m.2⟩ else o)
          st.opt }
    else
      let f := col.fwd h
      let upd : Tbl × Tbl × Tbl := (List.range T).foldl
        (fun s i =>
          let m := minOverJ T prevRow (col.cost i h) i rc
          if m.1 < s.1 f i then
            (tblSet s.1 f i m.1, tblSet s.2.1 f i h, tblSet s.2.2 f i m.2)
          else s)
        (st.proj, st.ibt, st.tbt)
      Except.ok { proj := upd.1, ibt := upd.2.1, tbt := upd.2.2, opt := st.opt }
  else Except.error ()

/-- The iterator walk of compute_column over a list of visited indices. -/
def coreRun (T : Nat) (isFirst isLast : Bool) (prevProj : Tbl)
    (col : ColumnInput) (rc : Nat) : List Nat → ColSweep → Except Unit ColSweep
  | [], st => Except.ok st
  | h :: hs, st =>
    match stepIndex T isFirst isLast prevProj col rc st h with
    | Except.error e => Except.error e
    | Except.ok s => coreRun T isFirst isLast prevProj col rc hs s

/-- The whole per-column computation of compute_column, from the freshly
allocated (sentinel-filled) projection and backtrace columns. -/
def computeColumnCore (T : Nat) (isFirst isLast : Bool) (prevProj : Tbl)
    (col : ColumnInput) (rc : Nat) (opt : OptState) : Except Unit ColSweep :=
  coreRun T isFirst isLast prevProj col rc col.walk
    ⟨constTbl UINT_MAX, constTbl UINT_MAX, constTbl UINT_MAX, opt⟩

/-- The three tables stored for a non-final column: projection_column_table,
index_backtrace_table and transmission_backtrace_table entries. -/
structure TblTriple where
  proj : Tbl
  ibt : Tbl
  tbt : Tbl

/-- The per-column table store (the three table vectors of the class,
with none standing for a released or never-stored column). -/
abbrev TblStore := Nat → Option TblTriple

/-- Point update of the table store. -/
def setTable (f : TblStore) (c : Nat) (v : Option TblTriple) : TblStore :=
  fun j => if j = c then v else f j

/-- The engine state between compute_column calls. -/
structure TableState where
  tables : TblStore
  opt : OptState

/-- Initial optimum after clear_table (lines 89-92). -/
def initOpt : OptState := ⟨UINT_MAX, 0, 0, 0⟩

/-- Initial engine state after clear_table. -/
def initTables : TableState := ⟨fun _ => none, initOpt⟩

/-- The previous projection column read by compute_column (lines 304-308):
for column 0 it is never consulted (the previous cost is the constant 0,
lines 379-382); for a positive column the C++ would dereference a null
pointer if the predecessor table were absent, which the callers never do -
the placeholder constant 0 table stands in for that unreachable read. -/
def prevProjOf (st : TableState) (c : Nat) : Tbl :=
  match st.tables (c - 1) with
  | some t => t.proj
  | none => constTbl 0

/-- Storing the freshly computed column (lines 433-438): the three tables
are recorded unless this is the last column; the running optimum was
updated only on the last column. -/
def storeResult (inp : DPInput) (c : Nat) (st : TableState) (s : ColSweep) :
    TableState :=
  if c + 1 < inp.colCount then
    ⟨setTable st.tables c (some ⟨s.proj, s.ibt, s.tbt⟩), st.opt⟩
  else
    ⟨st.tables, s.opt⟩

/-- PedigreeDPTable::compute_column (lines 279-439) as a state transformer:
if the column's tables are already present it returns unchanged
(lines 283-287); otherwise it runs the column computation against the
previous projection column and stores the outcome. -/
def computeColumn (inp : DPInput) (c : Nat) (st : TableState) :
    Except Unit TableState :=
  match st.tables c with
  | some _ => Except.ok st
  | none =>
    match computeColumnCore inp.T (c == 0) (c + 1 == inp.colCount)
        (prevProjOf st c) (inp.colAt c) (inp.rcAt c) st.opt with
    | Except.error e => Except.error e
    | Except.ok s => Except.ok (storeResult inp c st s)

/-- The forward sweep's space saving (lines 191-198): after column c is
computed, release column c-1 when it exists and is not a checkpoint. -/
def dropForward (inp : DPInput) (c : Nat) (s : TableState) : TableState :=
  if 1 < inp.k ∧ 0 < c ∧ (c - 1) % inp.k ≠ 0 then
    ⟨setTable s.tables (c - 1) none, s.opt⟩
  else s

/-- One iteration of the forward sweep (lines 169-199): compute column c,
then release column c-1 when it is not a checkpoint. -/
def forwardStep (inp : DPInput) (st : TableState) (c : Nat) :
    Except Unit TableState :=
  match computeColumn inp c st with
  | Except.error e => Except.error e
  | Except.ok s => Except.ok (dropForward inp c s)

/-- The forward sweep over the first c columns. -/
def forwardUpTo (inp : DPInput) : Nat → Except Unit TableState
  | 0 => Except.ok initTables
  | c + 1 =>
    match forwardUpTo inp c with
    | Except.error e => Except.error e
    | Except.ok st => forwardStep inp st c

/-- The full forward sweep of compute_table. -/
def forwardSweep (inp : DPInput) : Except Unit TableState :=
  forwardUpTo inp inp.colCount

/-- The reference forward computation that never releases any table: the
canonical record of every column's originally computed tables. -/
def fullUpTo (inp : DPInput) : Nat → Except Unit TableState
  | 0 => Except.ok initTables
  | c + 1 =>
    match fullUpTo inp c with
    | Except.error e => Except.error e
    | Except.ok st => computeColumn inp c st

/-- The reference forward computation over all columns. -/
def fullState (inp : DPInput) : Except Unit TableState :=
  fullUpTo inp inp.colCount

/-- The backtrace recovery loop (lines 216-220): recompute the m columns
j0+1, ..., j0+m in ascending order. -/
def recoverCols (inp : DPInput) : Nat → Nat → TableState → Except Unit TableState
  | _, 0, st => Except.ok st
  | j0, m + 1, st =>
    match computeColumn inp (j0 + 1) st with
    | Except.error e => Except.error e
    | Except.ok s => recoverCols inp (j0 + 1) m s

/-- index_and_inheritance_t. -/
structure IndexInh where
  index : Nat
  inheritance_value : Nat
deriving Repr, DecidableEq

/-- The state of the backward sweep: the table store, the entry v chosen
for the column currently considered, prev_inheritance_value, and the
index_path being filled. -/
structure BTState where
  ts : TableState
  v : IndexInh
  prev : Nat
  path : List IndexInh

/-- The table release of the backward sweep (lines 252-262): at a
checkpoint iteration, drop columns j with i ≤ j < i + k and
j < column_count - 1. -/
def dropBlock (inp : DPInput) (i : Nat) (tabs : TblStore) : TblStore :=
  fun j => if i ≤ j ∧ j < i + inp.k ∧ j < inp.colCount - 1 then none else tabs j

/-- The backtrace-table triple of column i-1 consulted by the backward
sweep at iteration i.  (The C++ asserts the tables are present; the
all-zero placeholder stands in for the unreachable missing case.) -/
def tripOf (ts : TableState) (i : Nat) : TblTriple :=
  match ts.tables (i - 1) with
  | some t => t
  | none => ⟨constTbl 0, constTbl 0, constTbl 0⟩

/-- One iteration of the backward sweep of compute_table (lines 212-263) at
column i ≥ 1: recover the tables of column i-1 from the nearest prior
checkpoint (i-1)/k*k if released (lines 214-221); then read the
backward projection of v.index through column i's indexer and update v and
prev_inheritance_value from the backtrace tables.  Line 249 reads
v.inheritance_value after line 248 overwrote it, so the transmission
backtrace row consulted is the one at the old prev_inheritance_value.
Finally write index_path[i-1] and release the traversed checkpoint block.
(The C++ asserts that the checkpoint table is present; the placeholder
all-zero triple stands in for the unreachable case of a still-missing
table.) -/
def backtraceStep (inp : DPInput) (st : BTState) (i : Nat) :
    Except Unit BTState :=
  match (if (st.ts.tables (i - 1)).isSome then Except.ok st.ts
         else recoverCols inp ((i - 1) / inp.k * inp.k)
           (i - 1 - (i - 1) / inp.k * inp.k) st.ts) with
  | Except.error e => Except.error e
  | Except.ok ts =>
    let trip : TblTriple := tripOf ts i
    let bidx := (inp.colAt i).bwd st.v.index
    let v' : IndexInh := ⟨trip.ibt bidx st.prev, st.prev⟩
    let prev' := trip.tbt bidx st.prev
    let tabs' := if i % inp.k = 0 then dropBlock inp i ts.tables else ts.tables
    Except.ok ⟨⟨tabs', ts.opt⟩, v', prev', st.path.set (i - 1) v'⟩

/-- Modelled from the spec: the backward-sweep update exactly as the spec
words it, where the transmission backtrace row is consulted at the
inheritance value of the already-chosen entry for column i (the old
v.inheritance_value) instead of at the freshly assigned one.  This is the
comparison definition for the refinement claim about the backward sweep;
the engine itself performs backtraceStep above. -/
def backtraceStepSpec (inp : DPInput) (st : BTState) (i : Nat) :
    Except Unit BTState :=
  match (if (st.ts.tables (i - 1)).isSome then Except.ok st.ts
         else recoverCols inp ((i - 1) / inp.k * inp.k)
           (i - 1 - (i - 1) / inp.k * inp.k) st.ts) with
  | Except.error e => Except.error e
  | Except.ok ts =>
    let trip : TblTriple := tripOf ts i
    let bidx := (inp.colAt i).bwd st.v.index
    let v' : IndexInh := ⟨trip.ibt bidx st.prev, st.prev⟩
    let prev' := trip.tbt bidx st.v.inheritance_value
    let tabs' := if i % inp.k = 0 then dropBlock inp i ts.tables else ts.tables
    Except.ok ⟨⟨tabs', ts.opt⟩, v', prev', st.path.set (i - 1) v'⟩

/-- The backward sweep from column i down to column 1, with a pluggable
per-iteration step (the engine uses backtraceStep). -/
def backtraceRun (inp : DPInput)
    (step : DPInput → BTState → Nat → Except Unit BTState) :
    Nat → BTState → Except Unit BTState
  | 0, st => Except.ok st
  | i + 1, st =>
    match step inp st (i + 1) with
    | Except.error e => Except.error e
    | Except.ok s => backtraceRun inp step i s

/-- The observable outcome of compute_table: the optimal score and the
index_path. -/
structure DPResult where
  score : Nat
  path : List IndexInh
deriving Repr, DecidableEq

/-- The seeding of the backward sweep (lines 202-207): index_path is
sized to the column count and its last entry set to the optimal index and
transmission value; prev_inheritance_value starts at
previous_transmission_value. -/
def seedBT (inp : DPInput) (fst : TableState) : BTState :=
  ⟨fst, ⟨fst.opt.index, fst.opt.tv⟩, fst.opt.ptv,
   (List.replicate inp.colCount (⟨0, 0⟩ : IndexInh)).set (inp.colCount - 1)
     ⟨fst.opt.index, fst.opt.tv⟩⟩

/-- PedigreeDPTable::compute_table (lines 148-264) parametrized by the
backward-sweep step: on an empty column set the score is 0 and the path
empty (lines 152-156); otherwise the forward sweep runs, the backward
sweep is seeded and fills the remaining path entries. -/
def computeTableWith (inp : DPInput)
    (step : DPInput → BTState → Nat → Except Unit BTState) :
    Except Unit DPResult :=
  if inp.colCount = 0 then Except.ok ⟨0, []⟩
  else
    match forwardSweep inp with
    | Except.error e => Except.error e
    | Except.ok fst =>
      match backtraceRun inp step (inp.colCount - 1) (seedBT inp fst) with
      | Except.error e => Except.error e
      | Except.ok bst => Except.ok ⟨fst.opt.score, bst.path⟩

/-- PedigreeDPTable::compute_table as implemented. -/
def compute_table (inp : DPInput) : Except Unit DPResult :=
  computeTableWith inp backtraceStep

/-- Modelled from the spec: compute_table with the backward sweep read off
the spec's words (see backtraceStepSpec). -/
def compute_tableSpec (inp : DPInput) : Except Unit DPResult :=
  computeTableWith inp backtraceStepSpec

/-- The inputs consumed along the precomputed-partitioning path of the
constructor: the per-column active read id lists in column order (from
extract_read_ids on each input column), the read_to_partition map built by
the constructor (lines 43-45), the ploidy, and - modelled from the spec:
PedigreeColumnCostComputer is outside the sources - the cost computer's
get_cost() value as a function of the column and the partitioning index it
was set to (inheritance pattern 0 is used throughout this path). -/
structure SIPInput where
  ploidy : Nat
  readIds : List (List Nat)
  rtp : Nat → Nat
  costAt : Nat → Nat → Nat

/-- The packing loop of set_index_path (lines 120-126): partitioning
accumulates read_to_partition[id] * offset while offset multiplies by
ploidy at each active read, in column order.  Both partitioning and
offset are C++ unsigned ints, so every addition and multiplication
wraps modulo 2 ^ 32. -/
def packPartitioning (ploidy : Nat) (rtp : Nat → Nat) (ids : List Nat) : Nat :=
  (ids.foldl
    (fun acc rid => ((acc.1 + rtp rid * acc.2) % 2 ^ 32, acc.2 * ploidy % 2 ^ 32))
    (0, 1)).1

/-- The base-ploidy positional value of the assigned partition values, used
to state what packPartitioning computes. -/
def packSum (ploidy : Nat) (rtp : Nat → Nat) : List Nat → Nat
  | [] => 0
  | rid :: rest => rtp rid + ploidy * packSum ploidy rtp rest

/-- The observable outcome of set_index_path: the accumulated optimal
score, the synthesized index_path, and the (never-filled) table store. -/
structure SIPResult where
  score : Nat
  path : List IndexInh
  tables : TblStore

/-- PedigreeDPTable::set_index_path (lines 96-145): clear_table leaves every
backtrace table slot empty; each column's path entry packs the active
reads' partitions in base ploidy with inheritance value 0, and the score
accumulates the cost computer's value for that partitioning as a C++
unsigned int, wrapping modulo 2 ^ 32 on each addition. -/
def set_index_path (inp : SIPInput) : SIPResult :=
  let n := inp.readIds.length
  ⟨(List.range n).foldl
      (fun s c =>
        (s + inp.costAt c (packPartitioning inp.ploidy inp.rtp (inp.readIds.getD c []))) % 2 ^ 32)
      0,
   (List.range n).map
      (fun c => (⟨packPartitioning inp.ploidy inp.rtp (inp.readIds.getD c []), 0⟩ : IndexInh)),
   fun _ => none⟩

/-- The per-column inner loop of get_optimal_partitioning (lines 513-518):
walk the column's active read ids, assigning index % ploidy to each and
dividing the index by ploidy. -/
def applyColumn (ploidy : Nat) (ids : List Nat) (index : Nat)
    (part : List Nat) : List Nat :=
  (ids.foldl (fun acc rid => (acc.1.set rid (acc.2 % ploidy), acc.2 / ploidy))
    (part, index)).1

/-- PedigreeDPTable::get_optimal_partitioning (lines 510-521): start from a
vector of read-set size filled with zeros, then for every column of the
index path overwrite the entries of that column's active reads. -/
def get_optimal_partitioning (ploidy numReads : Nat) (path : List IndexInh)
    (readIds : List (List Nat)) : List Nat :=
  (List.range path.length).foldl
    (fun part c =>
      applyColumn ploidy (readIds.getD c []) (path.getD c ⟨0, 0⟩).index part)
    (List.replicate numReads 0)

/-- A read as far as the constructor's id reassignment is concerned: its id
and its sample. -/
structure ReadModel where
  rid : Nat
  sample : Nat
deriving Repr, DecidableEq

/-- Modelled from the spec: ReadSet::reassignReadIds is outside the
sources; per the spec, after id reassignment the read ids are dense in
[0, num_reads), so each read in order receives its position as id. -/
def reassignFrom (k : Nat) : List ReadModel → List ReadModel
  | [] => []
  | r :: rest => { r with rid := k } :: reassignFrom (k + 1) rest

/-- Modelled from the spec: the id reassignment the constructor performs on
the caller's read set (line 27) before any computation. -/
def reassignReadIds (rs : List ReadModel) : List ReadModel :=
  reassignFrom 0 rs

/-- The ids of a read set, in order. -/
def readIdsOf (rs : List ReadModel) : List Nat := rs.map (fun r => r.rid)

/-- The inputs get_super_reads consumes: the pedigree size, the ploidy, the
column positions, the per-column allele counts, the chosen index_path, and
- modelled from the spec: PedigreeColumnCostComputer::get_alleles is
outside the sources - the allele chosen for individual k's local
haplotype j when the computer for column c, inheritance pattern i, is set
to partitioning index x. -/
structure GSRInput where
  pedSize : Nat
  ploidy : Nat
  positions : List Nat
  nAlleles : Nat → Nat
  path : List IndexInh
  alleles : Nat → Nat → Nat → Nat → Nat → Nat

/-- The qualities vector built for one variant (lines 490-493): allele_count
entries of 10, with 0 at the chosen allele. -/
def qualitiesFor (nAll chosen : Nat) : List Nat :=
  (List.range nAll).map (fun a => if a = chosen then 0 else 10)

/-- The variants appended to super-read (k, j) across the column loop of
get_super_reads (lines 478-500). -/
def superReadVariants (E : GSRInput) (k j : Nat) : List (Nat × Nat × List Nat) :=
  (List.range E.path.length).map
    (fun c =>
      let v := E.path.getD c ⟨0, 0⟩
      let al := E.alleles c v.inheritance_value v.index k j
      (E.positions.getD c 0, al, qualitiesFor (E.nAlleles c) al))

/-- The ploidy super-reads built for individual k: haplotype number,
individual number and the variant list (the C++ read name
superread_j_k and sample id encode the same two numbers). -/
def superReadsFor (E : GSRInput) (k : Nat) : List (Nat × Nat × List (Nat × Nat × List Nat)) :=
  (List.range E.ploidy).map (fun j => (j, k, superReadVariants E k j))

/-- The caller-visible state get_super_reads interacts with: the input
column iterator's position, the transmission vector, and the
per-individual output read sets. -/
structure GSRState where
  pos : Nat
  tv : List Nat
  ors : List (List (Nat × Nat × List (Nat × Nat × List Nat)))

/-- PedigreeDPTable::get_super_reads (lines 455-508): the iterator is reset
with jump_to_column(0) regardless of its position, the transmission vector
is cleared and refilled with the path's inheritance values in column
order, and each individual's output read set receives its ploidy freshly
built super-reads (appended after whatever the set already held). -/
def get_super_reads (E : GSRInput) (st : GSRState) : GSRState :=
  ⟨E.path.length,
   (List.range E.path.length).map (fun c => (E.path.getD c ⟨0, 0⟩).inheritance_value),
   (List.range E.pedSize).map (fun k => st.ors.getD k [] ++ superReadsFor E k)⟩

/-! ## Helper lemmas -/

theorem getD_map_range {α : Type} (P k : Nat) (f : Nat → α) (d : α) (h : k < P) :
    (((List.range P).map f).getD k d) = f k := by
  simp [List.getD, List.getElem?_map, List.getElem?_range, h]

theorem foldl_preserve {α β : Type} (P : α → Prop) (f : α → β → α)
    (hf : ∀ a b, P a → P (f a b)) : ∀ (l : List β) (a : α), P a → P (l.foldl f a) := by
  intro l
  induction l with
  | nil => intro a ha; exact ha
  | cons b t ih => intro a ha; exact ih (f a b) (hf a b ha)

theorem foldl_add_mod (M : Nat) : ∀ (l : List Nat) (s : Nat),
    l.foldl (fun a x => (a + x) % M) (s % M) = (s + l.sum) % M := by
  intro l
  induction l with
  | nil => intro s; simp
  | cons h t ih =>
    intro s
    simp only [List.foldl_cons, List.sum_cons, Nat.mod_add_mod]
    rw [ih (s + h), Nat.add_assoc]

/-! ## C2: the candidate cost arithmetic -/

theorem packless_lt_uint : UINT_MAX < 2 ^ 32 := by decide

/-- C2 (amended): the candidate formed in the inner relaxation equals
previous + current + popcount-term exactly when that exact sum stays below
the sentinel, and propagates the sentinel whenever the previous or the
current cost is the sentinel; the claim's assertion that the arithmetic
saturates (so that a finite sum reaching the sentinel or beyond would
yield the sentinel) fails - on overflow the value wraps modulo 2 ^ 32
instead (see the counterexample). -/
theorem c2_candidate_arithmetic (previous_cost current_cost pc rc : Nat)
    (hp : previous_cost ≤ UINT_MAX) (hc : current_cost ≤ UINT_MAX) :
    (previous_cost = UINT_MAX ∨ current_cost = UINT_MAX →
      candidateVal previous_cost current_cost pc rc = UINT_MAX) ∧
    (previous_cost + current_cost + pc * rc < UINT_MAX →
      candidateVal previous_cost current_cost pc rc =
        previous_cost + current_cost + pc * rc) := by
  constructor
  · rintro (h | h) <;> subst h <;> simp [candidateVal]
  · intro hsum
    have hp' : previous_cost < UINT_MAX := by omega
    have hc' : current_cost < UINT_MAX := by omega
    have hcp : current_cost + previous_cost < 2 ^ 32 := by
      have := packless_lt_uint; omega
    have hall : current_cost + previous_cost + pc * rc < 2 ^ 32 := by
      have := packless_lt_uint; omega
    simp only [candidateVal, hp', hc', and_true, if_true, true_and, if_pos (And.intro hc' hp'),
      Nat.mod_eq_of_lt hcp]
    have hlt : current_cost + previous_cost < UINT_MAX := by omega
    rw [if_pos hlt, Nat.mod_eq_of_lt hall]
    omega

/-- Counterexample for C2 as stated: with previous cost 2^32 - 2 and current
cost 2 (both below the sentinel) and no recombination term, the engine's
candidate wraps to 0, while truly saturating arithmetic would produce the
sentinel since the exact sum reaches it. -/
theorem c2_counterexample :
    candidateVal (2 ^ 32 - 2) 2 0 0 = 0 ∧
    candidateSaturating (2 ^ 32 - 2) 2 0 0 = UINT_MAX ∧ (0 : Nat) ≠ UINT_MAX := by
  exact ⟨by rfl, by rfl, by decide⟩

/-- Witness for c2_candidate_arithmetic at concrete inputs. -/
theorem c2_witness :
    candidateVal UINT_MAX 7 1 1 = UINT_MAX ∧ candidateVal 3 4 2 5 = 17 :=
  ⟨(c2_candidate_arithmetic UINT_MAX 7 1 1 (by decide) (by decide)).1 (Or.inl rfl),
   (c2_candidate_arithmetic 3 4 2 5 (by decide) (by decide)).2 (by decide)⟩

/-! ## C5: the precomputed-partitioning path -/

theorem packPartitioning_go (ploidy : Nat) (rtp : Nat → Nat) :
    ∀ (ids : List Nat) (a off : Nat),
      ((ids.foldl
        (fun acc rid => ((acc.1 + rtp rid * acc.2) % 2 ^ 32, acc.2 * ploidy % 2 ^ 32))
        (a % 2 ^ 32, off % 2 ^ 32))).1 =
        (a + off * packSum ploidy rtp ids) % 2 ^ 32 := by
  intro ids
  induction ids with
  | nil => intro a off; simp [packSum]
  | cons h t ih =>
    intro a off
    simp only [List.foldl_cons, packSum]
    have e1 : (a % 2 ^ 32 + rtp h * (off % 2 ^ 32)) % 2 ^ 32 =
        (a + rtp h * off) % 2 ^ 32 :=
      (Nat.mod_modEq a (2 ^ 32)).add (Nat.ModEq.mul_left (rtp h)
        (Nat.mod_modEq off (2 ^ 32)))
    have e2 : off % 2 ^ 32 * ploidy % 2 ^ 32 = off * ploidy % 2 ^ 32 :=
      Nat.ModEq.mul_right ploidy (Nat.mod_modEq off (2 ^ 32))
    rw [e1, e2, ih (a + rtp h * off) (off * ploidy)]
    congr 1
    ring

/-- packPartitioning computes the base-ploidy positional value of the
active reads' assigned partitions, in column order, reduced modulo 2 ^ 32
(the unsigned int packing variables wrap). -/
theorem packPartitioning_eq_packSum_mod (ploidy : Nat) (rtp : Nat → Nat)
    (ids : List Nat) :
    packPartitioning ploidy rtp ids = packSum ploidy rtp ids % 2 ^ 32 := by
  unfold packPartitioning
  rw [show ((0 : Nat), (1 : Nat)) = ((0 : Nat) % 2 ^ 32, (1 : Nat) % 2 ^ 32)
    from by norm_num]
  rw [packPartitioning_go ploidy rtp ids 0 1]
  norm_num

/-- The exact (unwrapped) sum of the per-column cost computer values
accumulated by set_index_path. -/
def sipScoreSum (inp : SIPInput) : Nat :=
  ((List.range inp.readIds.length).map
    (fun c => inp.costAt c (packPartitioning inp.ploidy inp.rtp (inp.readIds.getD c [])))).sum

/-- C5 (amended): with a precomputed partitioning the engine skips the
sweeps; index_path has one entry per column, each entry carries inheritance
value 0 and the base-ploidy packing of the active reads' partition values
in column order reduced modulo 2 ^ 32 (the unsigned packing loop wraps; the
stored index equals the exact packing precisely when the packing is below
2 ^ 32); no backtrace table is ever filled; and the reported score is the
sum of the per-column cost computer values reduced modulo 2 ^ 32 (the
unsigned accumulator wraps; the reported score equals the exact sum
precisely whenever that sum stays below 2 ^ 32).  The claim's unqualified
equalities miss both wraps - see the counterexample. -/
theorem c5_set_index_path (inp : SIPInput) :
    (set_index_path inp).path.length = inp.readIds.length ∧
    (∀ c, c < inp.readIds.length →
      (set_index_path inp).path.get? c =
        some ⟨packSum inp.ploidy inp.rtp (inp.readIds.getD c []) % 2 ^ 32, 0⟩) ∧
    (∀ c, c < inp.readIds.length →
      packSum inp.ploidy inp.rtp (inp.readIds.getD c []) < 2 ^ 32 →
      (set_index_path inp).path.get? c =
        some ⟨packSum inp.ploidy inp.rtp (inp.readIds.getD c []), 0⟩) ∧
    (∀ j, (set_index_path inp).tables j = none) ∧
    (set_index_path inp).score = sipScoreSum inp % 2 ^ 32 ∧
    (sipScoreSum inp < 2 ^ 32 → (set_index_path inp).score = sipScoreSum inp) := by
  have hget : ∀ c, c < inp.readIds.length →
      (set_index_path inp).path.get? c =
        some ⟨packSum inp.ploidy inp.rtp (inp.readIds.getD c []) % 2 ^ 32, 0⟩ := by
    intro c hc
    show ((List.range inp.readIds.length).map _).get? c = _
    rw [List.get?_eq_getElem?, List.getElem?_map, List.getElem?_range hc]
    simp [packPartitioning_eq_packSum_mod]
  have hmod : (set_index_path inp).score = sipScoreSum inp % 2 ^ 32 := by
    show (List.range inp.readIds.length).foldl _ 0 = _
    have h0 : (0 : Nat) = 0 % 2 ^ 32 := by decide
    rw [← List.foldl_map
      (fun c => inp.costAt c (packPartitioning inp.ploidy inp.rtp (inp.readIds.getD c [])))
      (fun a x => (a + x) % 2 ^ 32), h0, foldl_add_mod]
    simp [sipScoreSum]
  refine ⟨by simp [set_index_path], hget, ?_, fun j => rfl, hmod, ?_⟩
  · intro c hc hb
    rw [hget c hc, Nat.mod_eq_of_lt hb]
  · intro hlt
    rw [hmod, Nat.mod_eq_of_lt hlt]

/-- A precomputed-partitioning instance with two read-free columns whose
per-column costs are each 2^31: the unsigned score accumulator wraps. -/
def cex5 : SIPInput := ⟨2, [[], []], fun _ => 0, fun _ _ => 2 ^ 31⟩

/-- A read-to-partition map putting read 32 in partition 1 and every other
read in partition 0. -/
def cex5rtp : Nat → Nat := fun r => if r = 32 then 1 else 0

/-- Counterexample for C5 as stated, in both wrapping spots: on cex5 the
reported score is 0, not the sum 2^32 of the two per-column cost computer
values; and for a column with the 33 active reads 0..32 at ploidy 2, the
packing loop's unsigned offset has wrapped to 0 by read 32, so the stored
index is 0 while the exact base-2 packing of the partition values is
2^32. -/
theorem c5_counterexample :
    (set_index_path cex5).score = 0 ∧ sipScoreSum cex5 = 2 ^ 32 ∧
    (set_index_path cex5).score ≠ sipScoreSum cex5 ∧
    packPartitioning 2 cex5rtp (List.range 33) = 0 ∧
    packSum 2 cex5rtp (List.range 33) = 2 ^ 32 ∧
    packPartitioning 2 cex5rtp (List.range 33) ≠
      packSum 2 cex5rtp (List.range 33) :=
  ⟨by rfl, by rfl, by decide, by rfl, by rfl, by decide⟩

/-- A small precomputed-partitioning instance: ploidy 2, two columns with
active reads [0, 1] and [1]. -/
def sip1 : SIPInput := ⟨2, [[0, 1], [1]], fun r => r % 2, fun c x => c + x⟩

/-- Witness for c5_set_index_path at a concrete input. -/
theorem c5_witness :
    (set_index_path sip1).path.get? 0 = some ⟨packSum 2 (fun r => r % 2) [0, 1], 0⟩ ∧
    (set_index_path sip1).score = sipScoreSum sip1 :=
  ⟨(c5_set_index_path sip1).2.2.1 0 (by decide) (by decide),
   (c5_set_index_path sip1).2.2.2.2.2 (by decide)⟩

/-! ## C7: get_super_reads determinism -/

/-- C7: calling get_super_reads twice in succession, with no intervening
mutation, yields equal outputs: the transmission vector after the second
call equals the one after the first, and each individual's output read
set receives exactly the same super-reads from the second call as from the
first (the iterator is reset with jump_to_column(0) on entry, so the
position left by the first call does not influence the second). -/
theorem c7_get_super_reads_repeat (E : GSRInput) (st : GSRState) :
    (get_super_reads E (get_super_reads E st)).tv = (get_super_reads E st).tv ∧
    ∀ k, k < E.pedSize →
      (get_super_reads E st).ors.getD k [] = st.ors.getD k [] ++ superReadsFor E k ∧
      (get_super_reads E (get_super_reads E st)).ors.getD k [] =
        (get_super_reads E st).ors.getD k [] ++ superReadsFor E k := by
  refine ⟨rfl, ?_⟩
  intro k hk
  exact ⟨getD_map_range E.pedSize k _ [] hk, getD_map_range E.pedSize k _ [] hk⟩

/-- A concrete get_super_reads instance: one individual, ploidy 2, two
columns. -/
def gsrE : GSRInput := ⟨1, 2, [10, 20], fun _ => 2, [⟨0, 0⟩, ⟨1, 0⟩], fun _ _ _ _ j => j⟩

/-- A concrete starting state for get_super_reads. -/
def gsrSt : GSRState := ⟨5, [9], [[]]⟩

/-- Witness for c7_get_super_reads_repeat at a concrete input. -/
theorem c7_witness :
    (get_super_reads gsrE (get_super_reads gsrE gsrSt)).tv = (get_super_reads gsrE gsrSt).tv ∧
    (get_super_reads gsrE gsrSt).ors.getD 0 [] = gsrSt.ors.getD 0 [] ++ superReadsFor gsrE 0 :=
  ⟨(c7_get_super_reads_repeat gsrE gsrSt).1,
   ((c7_get_super_reads_repeat gsrE gsrSt).2 0 (by decide)).1⟩

/-! ## C8 and C10: get_optimal_partitioning -/

theorem applyColumn_preserve (p N : Nat) (hp : 0 < p) (ids : List Nat) (ix : Nat)
    (part : List Nat) (h : part.length = N ∧ ∀ x ∈ part, x < p) :
    (applyColumn p ids ix part).length = N ∧
      ∀ x ∈ applyColumn p ids ix part, x < p := by
  show (ids.foldl _ (part, ix)).1.length = N ∧ ∀ x ∈ (ids.foldl _ (part, ix)).1, x < p
  have := foldl_preserve
    (fun acc : List Nat × Nat => acc.1.length = N ∧ ∀ x ∈ acc.1, x < p)
    (fun acc rid => (acc.1.set rid (acc.2 % p), acc.2 / p))
    (fun acc rid hacc => by
      refine ⟨by rw [List.length_set]; exact hacc.1, ?_⟩
      intro x hx
      rcases List.mem_or_eq_of_mem_set hx with hmem | hval
      · exact hacc.2 x hmem
      · subst hval; exact Nat.mod_lt _ hp)
    ids (part, ix) h
  exact this

/-- C8: for every successful run the optimal partitioning has one entry
per read of the read set and every entry lies below the ploidy. -/
theorem c8_optimal_partitioning_range (ploidy numReads : Nat)
    (path : List IndexInh) (readIds : List (List Nat)) (hp : 0 < ploidy) :
    (get_optimal_partitioning ploidy numReads path readIds).length = numReads ∧
    ∀ x ∈ get_optimal_partitioning ploidy numReads path readIds, x < ploidy := by
  unfold get_optimal_partitioning
  apply foldl_preserve
    (fun part : List Nat => part.length = numReads ∧ ∀ x ∈ part, x < ploidy)
  · intro part c h
    exact applyColumn_preserve ploidy numReads hp _ _ part h
  · refine ⟨List.length_replicate numReads 0, ?_⟩
    intro x hx
    rw [List.eq_of_mem_replicate hx]
    exact hp

/-- Witness for c8_optimal_partitioning_range at a concrete input. -/
theorem c8_witness :
    (get_optimal_partitioning 2 3 [⟨5, 0⟩] [[0, 2]]).length = 3 ∧
    ∀ x ∈ get_optimal_partitioning 2 3 [⟨5, 0⟩] [[0, 2]], x < 2 :=
  c8_optimal_partitioning_range 2 3 [⟨5, 0⟩] [[0, 2]] (by decide)

theorem getD_cases {α : Type} (l : List α) (d : α) :
    ∀ c : Nat, l.getD c d ∈ l ∨ l.getD c d = d := by
  induction l with
  | nil => intro c; right; cases c <;> rfl
  | cons a t ih =>
    intro c
    cases c with
    | zero => left; exact List.mem_cons_self a t
    | succ c' =>
      rcases ih c' with h | h
      · left; exact List.mem_cons_of_mem a h
      · right; exact h

theorem applyColumn_get?_not_mem (p rid : Nat) :
    ∀ (ids : List Nat), rid ∉ ids → ∀ (part : List Nat) (ix : Nat),
      (applyColumn p ids ix part).get? rid = part.get? rid := by
  intro ids
  induction ids with
  | nil => intro _ part ix; rfl
  | cons a t ih =>
    intro hmem part ix
    have ha : a ≠ rid := fun h => hmem (h ▸ List.mem_cons_self a t)
    have ht : rid ∉ t := fun h => hmem (List.mem_cons_of_mem a h)
    show ((a :: t).foldl _ (part, ix)).1.get? rid = _
    rw [List.foldl_cons]
    have := ih ht (part.set a (ix % p)) (ix / p)
    show (applyColumn p t (ix / p) (part.set a (ix % p))).get? rid = _
    rw [this, List.get?_eq_getElem?, List.get?_eq_getElem?, List.getElem?_set_ne ha]

/-- C10: a read whose id occurs in no column's active read list keeps the
zero the result vector was initialized with. -/
theorem c10_inactive_read_zero (ploidy numReads rid : Nat) (path : List IndexInh)
    (readIds : List (List Nat)) (h1 : rid < numReads)
    (h2 : ∀ l ∈ readIds, rid ∉ l) :
    (get_optimal_partitioning ploidy numReads path readIds).get? rid = some 0 := by
  have hnm : ∀ c : Nat, rid ∉ readIds.getD c [] := by
    intro c
    rcases getD_cases readIds [] c with h | h
    · exact h2 _ h
    · rw [h]; exact List.not_mem_nil rid
  unfold get_optimal_partitioning
  apply foldl_preserve (fun part : List Nat => part.get? rid = some 0)
  · intro part c hpart
    rw [applyColumn_get?_not_mem ploidy rid _ (hnm c)]
    exact hpart
  · rw [List.get?_eq_getElem?]
    simp [List.getElem?_replicate, h1]

/-- Witness for c10_inactive_read_zero at a concrete input. -/
theorem c10_witness :
    (get_optimal_partitioning 2 3 [⟨5, 0⟩] [[0, 2]]).get? 1 = some 0 :=
  c10_inactive_read_zero 2 3 1 [⟨5, 0⟩] [[0, 2]] (by decide)
    (by intro l hl; simp at hl; subst hl; decide)

/-! ## C9: the constructor's id reassignment -/

theorem readIdsOf_reassignFrom :
    ∀ (rs : List ReadModel) (k : Nat),
      readIdsOf (reassignFrom k rs) = List.range' k rs.length := by
  intro rs
  induction rs with
  | nil => intro k; rfl
  | cons r t ih =>
    intro k
    show (k :: readIdsOf (reassignFrom (k + 1) t)) = _
    rw [ih (k + 1)]
    show k :: List.range' (k + 1) t.length = List.range' k (t.length + 1)
    rw [List.range'_succ]

theorem reassignFrom_fixed_iff :
    ∀ (rs : List ReadModel) (k : Nat),
      reassignFrom k rs = rs ↔ readIdsOf rs = List.range' k rs.length := by
  intro rs
  induction rs with
  | nil => intro k; simp [reassignFrom, readIdsOf]
  | cons r t ih =>
    intro k
    show ({ r with rid := k } :: reassignFrom (k + 1) t) = r :: t ↔
      (r.rid :: readIdsOf t) = List.range' k (t.length + 1)
    rw [List.range'_succ, List.cons.injEq, List.cons.injEq, ih (k + 1)]
    constructor
    · rintro ⟨h1, h2⟩
      refine ⟨?_, h2⟩
      rw [← h1]
    · rintro ⟨h1, h2⟩
      refine ⟨?_, h2⟩
      cases r
      simp_all

/-- C9 (amended): the constructor calls reassignReadIds on the caller's
read set before any computation, so after construction the read ids are
dense in [0, num_reads); the reassignment rewrites the ids in place, and
the read set's value is left unchanged exactly when its ids were already
0, 1, ..., num_reads - 1 in order (so a set with already-dense ids is
value-unchanged, contrary to the claim's unconditional assertion of
change - see the counterexample). -/
theorem c9_reassign_dense (rs : List ReadModel) :
    readIdsOf (reassignReadIds rs) = List.range rs.length ∧
    (reassignReadIds rs = rs ↔ readIdsOf rs = List.range rs.length) := by
  have hr : List.range rs.length = List.range' 0 rs.length := List.range_eq_range' rs.length
  constructor
  · rw [hr]; exact readIdsOf_reassignFrom rs 0
  · rw [hr]; exact reassignFrom_fixed_iff rs 0

/-- A read set whose ids are already dense in order. -/
def rsDense : List ReadModel := [⟨0, 7⟩, ⟨1, 7⟩]

/-- Counterexample for C9 as stated: on a read set whose ids are already
dense the constructor's reassignment leaves the read set value-unchanged,
so the claim that the input object is never left unchanged fails. -/
theorem c9_counterexample :
    reassignReadIds rsDense = rsDense ∧ readIdsOf rsDense = List.range rsDense.length :=
  ⟨by rfl, by rfl⟩

/-! ## C1: the Mendelian conflict guard -/

/-- A visited index passes the guard exactly when some transmission
configuration has a finite current cost there. -/
theorem goodIndexB_iff (T : Nat) (col : ColumnInput) (h : Nat) :
    goodIndexB T col h = true ↔ ∃ i, i < T ∧ col.cost i h < UINT_MAX := by
  simp [goodIndexB, List.any_eq_true, List.mem_range]

/-- A column on which the guard never fires over the whole walk. -/
def goodColumn (inp : DPInput) (c : Nat) : Prop :=
  ∀ h ∈ (inp.colAt c).walk, goodIndexB inp.T (inp.colAt c) h = true

theorem goodColumn_oob (inp : DPInput) (j : Nat) (h : inp.colCount ≤ j) :
    goodColumn inp j := by
  intro x hx
  rw [DPInput.colAt, List.getD_eq_default _ _ h] at hx
  exact absurd hx (List.not_mem_nil x)

theorem stepIndex_err (T : Nat) (isFirst isLast : Bool) (prevProj : Tbl)
    (col : ColumnInput) (rc : Nat) (st : ColSweep) (h : Nat)
    (hg : goodIndexB T col h = false) :
    stepIndex T isFirst isLast prevProj col rc st h = Except.error () := by
  simp [stepIndex, hg]

theorem stepIndex_ok (T : Nat) (isFirst isLast : Bool) (prevProj : Tbl)
    (col : ColumnInput) (rc : Nat) (st : ColSweep) (h : Nat)
    (hg : goodIndexB T col h = true) :
    ∃ s, stepIndex T isFirst isLast prevProj col rc st h = Except.ok s := by
  unfold stepIndex
  rw [if_pos hg]
  cases isLast
  · exact ⟨_, rfl⟩
  · exact ⟨_, rfl⟩

theorem coreRun_ok (T : Nat) (isFirst isLast : Bool) (prevProj : Tbl)
    (col : ColumnInput) (rc : Nat) :
    ∀ (l : List Nat) (st : ColSweep), (∀ h ∈ l, goodIndexB T col h = true) →
      ∃ s, coreRun T isFirst isLast prevProj col rc l st = Except.ok s := by
  intro l
  induction l with
  | nil => intro st _; exact ⟨st, rfl⟩
  | cons a t ih =>
    intro st hl
    obtain ⟨s, hs⟩ := stepIndex_ok T isFirst isLast prevProj col rc st a
      (hl a (List.mem_cons_self a t))
    obtain ⟨s', hs'⟩ := ih s (fun h hh => hl h (List.mem_cons_of_mem a hh))
    exact ⟨s', by rw [coreRun, hs]; exact hs'⟩

theorem coreRun_err (T : Nat) (isFirst isLast : Bool) (prevProj : Tbl)
    (col : ColumnInput) (rc : Nat) :
    ∀ (l : List Nat) (st : ColSweep),
      (∃ h ∈ l, goodIndexB T col h = false) →
      coreRun T isFirst isLast prevProj col rc l st = Except.error () := by
  intro l
  induction l with
  | nil => intro st h; exact absurd h (by simp)
  | cons a t ih =>
    intro st hl
    by_cases ha : goodIndexB T col a = true
    · obtain ⟨s, hs⟩ := stepIndex_ok T isFirst isLast prevProj col rc st a ha
      rw [coreRun, hs]
      apply ih
      rcases hl with ⟨h, hmem, hbad⟩
      rcases List.mem_cons.mp hmem with rfl | hmem'
      · rw [ha] at hbad; exact absurd hbad (by simp)
      · exact ⟨h, hmem', hbad⟩
    · rw [coreRun, stepIndex_err T isFirst isLast prevProj col rc st a
        (Bool.not_eq_true _ ▸ ha)]

theorem computeColumn_ok (inp : DPInput) (c : Nat) (st : TableState)
    (hg : goodColumn inp c) : ∃ s, computeColumn inp c st = Except.ok s := by
  unfold computeColumn
  cases hmem : st.tables c with
  | some t => exact ⟨st, rfl⟩
  | none =>
    obtain ⟨s, hs⟩ := coreRun_ok inp.T (c == 0) (c + 1 == inp.colCount)
      (prevProjOf st c) (inp.colAt c) (inp.rcAt c) (inp.colAt c).walk
      ⟨constTbl UINT_MAX, constTbl UINT_MAX, constTbl UINT_MAX, st.opt⟩ hg
    have hs' : computeColumnCore inp.T (c == 0) (c + 1 == inp.colCount)
        (prevProjOf st c) (inp.colAt c) (inp.rcAt c) st.opt = Except.ok s := hs
    rw [hs']
    exact ⟨_, rfl⟩

theorem computeColumn_err (inp : DPInput) (c : Nat) (st : TableState)
    (hnone : st.tables c = none) (hg : ¬ goodColumn inp c) :
    computeColumn inp c st = Except.error () := by
  unfold computeColumn
  rw [hnone]
  have hbad : ∃ h ∈ (inp.colAt c).walk, goodIndexB inp.T (inp.colAt c) h = false := by
    unfold goodColumn at hg
    push_neg at hg
    rcases hg with ⟨h, hmem, hval⟩
    exact ⟨h, hmem, Bool.not_eq_true _ ▸ hval⟩
  have herr : computeColumnCore inp.T (c == 0) (c + 1 == inp.colCount)
      (prevProjOf st c) (inp.colAt c) (inp.rcAt c) st.opt = Except.error () :=
    coreRun_err _ _ _ _ _ _ _ _ hbad
  rw [herr]

theorem storeResult_tables_ne (inp : DPInput) (c : Nat) (st : TableState)
    (s : ColSweep) (j : Nat) (hj : j ≠ c) :
    (storeResult inp c st s).tables j = st.tables j := by
  unfold storeResult
  by_cases hlt : c + 1 < inp.colCount
  · rw [if_pos hlt]
    show setTable st.tables c _ j = _
    unfold setTable
    rw [if_neg hj]
  · rw [if_neg hlt]

theorem computeColumn_none_high (inp : DPInput) (c : Nat) (st s : TableState)
    (hok : computeColumn inp c st = Except.ok s) (j : Nat) (hj : c < j)
    (hnone : st.tables j = none) : s.tables j = none := by
  unfold computeColumn at hok
  split at hok
  · cases hok
    exact hnone
  · split at hok
    · cases hok
    · cases hok
      rw [storeResult_tables_ne inp c st _ j (by omega)]
      exact hnone

theorem dropForward_none (inp : DPInput) (c : Nat) (s : TableState) (j : Nat)
    (h : s.tables j = none) : (dropForward inp c s).tables j = none := by
  unfold dropForward
  by_cases hdrop : 1 < inp.k ∧ 0 < c ∧ (c - 1) % inp.k ≠ 0
  · rw [if_pos hdrop]
    show setTable s.tables (c - 1) none j = none
    unfold setTable
    by_cases hjc : j = c - 1
    · rw [if_pos hjc]
    · rw [if_neg hjc]; exact h
  · rw [if_neg hdrop]; exact h

theorem forwardUpTo_none (inp : DPInput) :
    ∀ (c : Nat) (st : TableState), forwardUpTo inp c = Except.ok st →
      ∀ j, c ≤ j → st.tables j = none := by
  intro c
  induction c with
  | zero => intro st h j _; cases h; rfl
  | succ c ih =>
    intro st h j hj
    unfold forwardUpTo at h
    split at h
    · cases h
    · rename_i st0 hpre
      unfold forwardStep at h
      split at h
      · cases h
      · rename_i s1 hcc
        cases h
        exact dropForward_none inp c s1 j
          (computeColumn_none_high inp c st0 s1 hcc j (by omega)
            (ih st0 hpre j (by omega)))

theorem forwardUpTo_ok (inp : DPInput) :
    ∀ (c : Nat), (∀ j, j < c → goodColumn inp j) →
      ∃ st, forwardUpTo inp c = Except.ok st := by
  intro c
  induction c with
  | zero => intro _; exact ⟨initTables, rfl⟩
  | succ c ih =>
    intro hg
    obtain ⟨st, hst⟩ := ih (fun j hj => hg j (by omega))
    obtain ⟨s1, hs1⟩ := computeColumn_ok inp c st (hg c (by omega))
    have hdef : forwardUpTo inp (c + 1) = forwardStep inp st c := by
      unfold forwardUpTo
      rw [hst]
    rw [hdef]
    unfold forwardStep
    rw [hs1]
    exact ⟨_, rfl⟩

theorem forwardUpTo_err (inp : DPInput) :
    ∀ (c : Nat), (∃ j, j < c ∧ ¬ goodColumn inp j) →
      forwardUpTo inp c = Except.error () := by
  intro c
  induction c with
  | zero => rintro ⟨j, hj, _⟩; omega
  | succ c ih =>
    rintro ⟨j, hj, hbad⟩
    by_cases hjc : j < c
    · unfold forwardUpTo
      rw [ih ⟨j, hjc, hbad⟩]
    · have hjeq : j = c := by omega
      rw [hjeq] at hbad
      by_cases hex : ∃ j', j' < c ∧ ¬ goodColumn inp j'
      · unfold forwardUpTo
        rw [ih hex]
      · have hall : ∀ j', j' < c → goodColumn inp j' := by
          intro j' hj'
          by_contra hb
          exact hex ⟨j', hj', hb⟩
        obtain ⟨st, hst⟩ := forwardUpTo_ok inp c hall
        have hdef : forwardUpTo inp (c + 1) = forwardStep inp st c := by
          unfold forwardUpTo
          rw [hst]
        rw [hdef]
        unfold forwardStep
        rw [computeColumn_err inp c st (forwardUpTo_none inp c st hst c (by omega)) hbad]

theorem goodColumn_all (inp : DPInput)
    (h : ∀ c, c < inp.colCount → goodColumn inp c) : ∀ c, goodColumn inp c := by
  intro c
  by_cases hc : c < inp.colCount
  · exact h c hc
  · exact goodColumn_oob inp c (by omega)

theorem recoverCols_ok (inp : DPInput) (hg : ∀ j, goodColumn inp j) :
    ∀ (m j0 : Nat) (st : TableState), ∃ s, recoverCols inp j0 m st = Except.ok s := by
  intro m
  induction m with
  | zero => intro j0 st; exact ⟨st, rfl⟩
  | succ m ih =>
    intro j0 st
    obtain ⟨s1, hs1⟩ := computeColumn_ok inp (j0 + 1) st (hg (j0 + 1))
    obtain ⟨s2, hs2⟩ := ih (j0 + 1) s1
    refine ⟨s2, ?_⟩
    unfold recoverCols
    rw [hs1]
    exact hs2

theorem backtraceStep_ok (inp : DPInput) (hg : ∀ j, goodColumn inp j)
    (st : BTState) (i : Nat) : ∃ s, backtraceStep inp st i = Except.ok s := by
  unfold backtraceStep
  by_cases hs : (st.ts.tables (i - 1)).isSome
  · rw [if_pos hs]
    exact ⟨_, rfl⟩
  · rw [if_neg hs]
    obtain ⟨ts, hts⟩ := recoverCols_ok inp hg
      (i - 1 - (i - 1) / inp.k * inp.k) ((i - 1) / inp.k * inp.k) st.ts
    rw [hts]
    exact ⟨_, rfl⟩

theorem backtraceRun_ok (inp : DPInput) (hg : ∀ j, goodColumn inp j) :
    ∀ (m : Nat) (st : BTState),
      ∃ s, backtraceRun inp backtraceStep m st = Except.ok s := by
  intro m
  induction m with
  | zero => intro st; exact ⟨st, rfl⟩
  | succ m ih =>
    intro st
    obtain ⟨s1, hs1⟩ := backtraceStep_ok inp hg st (m + 1)
    obtain ⟨s2, hs2⟩ := ih s1
    refine ⟨s2, ?_⟩
    unfold backtraceRun
    rw [hs1]
    exact hs2

theorem notGoodColumn_iff (inp : DPInput) (c : Nat) :
    (¬ goodColumn inp c) ↔ ∃ h ∈ (inp.colAt c).walk,
      ∀ i, i < inp.T → ¬ (inp.colAt c).cost i h < UINT_MAX := by
  simp only [goodColumn, goodIndexB_iff]
  push_neg
  simp [not_lt]

/-- C1 (amended): the forward sweep raises the Mendelian conflict error
exactly when some column has some iterator-visited partitioning index at
which every inheritance pattern's current cost is the infinity sentinel
(the C++ checks the found_valid flag after each visited index, inside the
walk, not only after the whole walk as the claim reads: one all-infinite
visited index aborts the run even when other indices of the same column
have finite cost - see the counterexample); when no column has such an
index, no error is raised. -/
theorem c1_mendelian_conflict (inp : DPInput) :
    compute_table inp = Except.error () ↔
    ∃ c, c < inp.colCount ∧ ∃ h ∈ (inp.colAt c).walk,
      ∀ i, i < inp.T → ¬ (inp.colAt c).cost i h < UINT_MAX := by
  unfold compute_table computeTableWith
  by_cases hn : inp.colCount = 0
  · rw [if_pos hn]
    constructor
    · intro h; cases h
    · rintro ⟨c, hc, _⟩; omega
  · rw [if_neg hn]
    constructor
    · intro herr
      by_contra hne
      have hall : ∀ c, c < inp.colCount → goodColumn inp c := by
        intro c hc
        by_contra hb
        exact hne ⟨c, hc, (notGoodColumn_iff inp c).mp hb⟩
      have hg := goodColumn_all inp hall
      split at herr
      · rename_i e hsw
        obtain ⟨fst, hfst⟩ := forwardUpTo_ok inp inp.colCount (fun j hj => hall j hj)
        rw [show forwardSweep inp = forwardUpTo inp inp.colCount from rfl, hfst] at hsw
        cases hsw
      · rename_i fst hsw
        split at herr
        · rename_i e hbt
          obtain ⟨bst, hbst⟩ := backtraceRun_ok inp hg (inp.colCount - 1)
            (seedBT inp fst)
          rw [hbst] at hbt
          cases hbt
        · cases herr
    · rintro ⟨c, hc, hbad⟩
      have hfe : forwardUpTo inp inp.colCount = Except.error () :=
        forwardUpTo_err inp inp.colCount
          ⟨c, hc, (notGoodColumn_iff inp c).mpr hbad⟩
      rw [show forwardSweep inp = forwardUpTo inp inp.colCount from rfl, hfe]

/-- A single-column instance whose walk visits index 0 (finite cost) and
then index 1 (every inheritance pattern at the sentinel). -/
def cex1 : DPInput := ⟨0, [0],
  [⟨[0, 1], fun _ => 0, fun _ => 0, fun _ h => if h = 0 then 5 else UINT_MAX⟩]⟩

/-- Counterexample for C1 as stated: the engine raises the Mendelian
conflict error on cex1 although its only column does have a finite-cost
(i, index) cell (at index 0), so the error is not raised only when every
cell of some column is infinite. -/
theorem c1_counterexample :
    compute_table cex1 = Except.error () ∧
    ∀ c, c < cex1.colCount → ∃ h ∈ (cex1.colAt c).walk,
      ∃ i, i < cex1.T ∧ (cex1.colAt c).cost i h < UINT_MAX := by
  constructor
  · rfl
  · decide

/-! ## C6: no pedigree triples means recombination costs are irrelevant -/

theorem candidateVal_pc_zero (p c rc rc' : Nat) :
    candidateVal p c 0 rc = candidateVal p c 0 rc' := by
  unfold candidateVal
  simp

theorem minOverJ_one (f : Nat → Nat) (cc rc rc' : Nat) :
    minOverJ 1 f cc 0 rc = minOverJ 1 f cc 0 rc' := by
  unfold minOverJ
  rw [show List.range 1 = [0] from rfl]
  simp only [List.foldl_cons, List.foldl_nil]
  rw [show popcount (Nat.xor 0 0) = 0 from rfl]
  rw [candidateVal_pc_zero (f 0) cc rc rc']

theorem stepIndex_rc_one (isF isL : Bool) (prev : Tbl) (col : ColumnInput)
    (rc rc' : Nat) (st : ColSweep) (h : Nat) :
    stepIndex 1 isF isL prev col rc st h = stepIndex 1 isF isL prev col rc' st h := by
  have key : ∀ f cc, minOverJ 1 f cc 0 rc = minOverJ 1 f cc 0 rc' :=
    fun f cc => minOverJ_one f cc rc rc'
  unfold stepIndex
  rw [show List.range 1 = [0] from rfl]
  simp only [List.foldl_cons, List.foldl_nil, key]

theorem coreRun_rc_one (isF isL : Bool) (prev : Tbl) (col : ColumnInput)
    (rc rc' : Nat) : ∀ (l : List Nat) (st : ColSweep),
      coreRun 1 isF isL prev col rc l st = coreRun 1 isF isL prev col rc' l st := by
  intro l
  induction l with
  | nil => intro st; rfl
  | cons a t ih =>
    intro st
    unfold coreRun
    rw [stepIndex_rc_one isF isL prev col rc rc' st a]
    cases h : stepIndex 1 isF isL prev col rc' st a with
    | error e => rfl
    | ok s => exact ih s

theorem computeColumnCore_rc_one (isF isL : Bool) (prev : Tbl)
    (col : ColumnInput) (rc rc' : Nat) (opt : OptState) :
    computeColumnCore 1 isF isL prev col rc opt =
      computeColumnCore 1 isF isL prev col rc' opt :=
  coreRun_rc_one isF isL prev col rc rc' col.walk _

theorem computeColumn_rc_one (inp1 inp2 : DPInput)
    (hcols : inp1.cols = inp2.cols) (h1 : inp1.triple_count = 0)
    (h2 : inp2.triple_count = 0) (c : Nat) (st : TableState) :
    computeColumn inp1 c st = computeColumn inp2 c st := by
  have hT1 : inp1.T = 1 := by simp [DPInput.T, h1]
  have hT2 : inp2.T = 1 := by simp [DPInput.T, h2]
  have hcnt : inp1.colCount = inp2.colCount := by
    unfold DPInput.colCount
    rw [hcols]
  have hcolAt : inp1.colAt = inp2.colAt := by
    funext j
    unfold DPInput.colAt
    rw [hcols]
  have hsr : storeResult inp1 = storeResult inp2 := by
    funext j st' s
    unfold storeResult
    rw [hcnt]
  unfold computeColumn
  cases hmem : st.tables c with
  | some t => rfl
  | none =>
    have hcore : computeColumnCore inp1.T (c == 0) (c + 1 == inp1.colCount)
        (prevProjOf st c) (inp1.colAt c) (inp1.rcAt c) st.opt =
      computeColumnCore inp2.T (c == 0) (c + 1 == inp2.colCount)
        (prevProjOf st c) (inp2.colAt c) (inp2.rcAt c) st.opt := by
      rw [hT1, hT2, hcnt, hcolAt]
      exact computeColumnCore_rc_one (c == 0) (c + 1 == inp2.colCount)
        (prevProjOf st c) (inp2.colAt c) (inp1.rcAt c) (inp2.rcAt c) st.opt
    rw [hcore, hsr]

theorem dropForward_rc_one (inp1 inp2 : DPInput)
    (hcols : inp1.cols = inp2.cols) (c : Nat) (s : TableState) :
    dropForward inp1 c s = dropForward inp2 c s := by
  have hk : inp1.k = inp2.k := by
    unfold DPInput.k DPInput.colCount
    rw [hcols]
  unfold dropForward
  rw [hk]

theorem forwardUpTo_rc_one (inp1 inp2 : DPInput)
    (hcols : inp1.cols = inp2.cols) (h1 : inp1.triple_count = 0)
    (h2 : inp2.triple_count = 0) :
    ∀ c, forwardUpTo inp1 c = forwardUpTo inp2 c := by
  intro c
  induction c with
  | zero => rfl
  | succ c ih =>
    unfold forwardUpTo
    rw [ih]
    cases h : forwardUpTo inp2 c with
    | error e => rfl
    | ok st =>
      show forwardStep inp1 st c = forwardStep inp2 st c
      unfold forwardStep
      rw [computeColumn_rc_one inp1 inp2 hcols h1 h2 c st]
      cases hcc : computeColumn inp2 c st with
      | error e => rfl
      | ok s =>
        show Except.ok (dropForward inp1 c s) = Except.ok (dropForward inp2 c s)
        rw [dropForward_rc_one inp1 inp2 hcols c s]

theorem recoverCols_rc_one (inp1 inp2 : DPInput)
    (hcols : inp1.cols = inp2.cols) (h1 : inp1.triple_count = 0)
    (h2 : inp2.triple_count = 0) :
    ∀ (m j0 : Nat) (st : TableState),
      recoverCols inp1 j0 m st = recoverCols inp2 j0 m st := by
  intro m
  induction m with
  | zero => intro j0 st; rfl
  | succ m ih =>
    intro j0 st
    unfold recoverCols
    rw [computeColumn_rc_one inp1 inp2 hcols h1 h2 (j0 + 1) st]
    cases hcc : computeColumn inp2 (j0 + 1) st with
    | error e => rfl
    | ok s => exact ih (j0 + 1) s

theorem backtraceStep_rc_one (inp1 inp2 : DPInput)
    (hcols : inp1.cols = inp2.cols) (h1 : inp1.triple_count = 0)
    (h2 : inp2.triple_count = 0) (st : BTState) (i : Nat) :
    backtraceStep inp1 st i = backtraceStep inp2 st i := by
  have hk : inp1.k = inp2.k := by
    unfold DPInput.k DPInput.colCount
    rw [hcols]
  have hcolAt : inp1.colAt = inp2.colAt := by
    funext j
    unfold DPInput.colAt
    rw [hcols]
  have hcnt : inp1.colCount = inp2.colCount := by
    unfold DPInput.colCount
    rw [hcols]
  have hdb : dropBlock inp1 = dropBlock inp2 := by
    funext j tabs x
    unfold dropBlock
    rw [hk, hcnt]
  unfold backtraceStep
  rw [hk, hcolAt, hdb,
    recoverCols_rc_one inp1 inp2 hcols h1 h2
      (i - 1 - (i - 1) / inp2.k * inp2.k) ((i - 1) / inp2.k * inp2.k) st.ts]

theorem backtraceRun_rc_one (inp1 inp2 : DPInput)
    (hcols : inp1.cols = inp2.cols) (h1 : inp1.triple_count = 0)
    (h2 : inp2.triple_count = 0) :
    ∀ (m : Nat) (st : BTState),
      backtraceRun inp1 backtraceStep m st = backtraceRun inp2 backtraceStep m st := by
  intro m
  induction m with
  | zero => intro st; rfl
  | succ m ih =>
    intro st
    unfold backtraceRun
    rw [backtraceStep_rc_one inp1 inp2 hcols h1 h2 st (m + 1)]
    cases h : backtraceStep inp2 st (m + 1) with
    | error e => rfl
    | ok s => exact ih s

theorem compute_table_rc_one (inp1 inp2 : DPInput)
    (hcols : inp1.cols = inp2.cols) (h1 : inp1.triple_count = 0)
    (h2 : inp2.triple_count = 0) :
    compute_table inp1 = compute_table inp2 := by
  have hcnt : inp1.colCount = inp2.colCount := by
    unfold DPInput.colCount
    rw [hcols]
  have hseed : seedBT inp1 = seedBT inp2 := by
    funext fst
    unfold seedBT
    rw [hcnt]
  unfold compute_table computeTableWith
  rw [hcnt, show forwardSweep inp1 = forwardSweep inp2 from by
    unfold forwardSweep
    rw [hcnt]
    exact forwardUpTo_rc_one inp1 inp2 hcols h1 h2 inp2.colCount]
  by_cases hn : inp2.colCount = 0
  · rw [if_pos hn, if_pos hn]
  · rw [if_neg hn, if_neg hn]
    have hbt : ∀ m st, backtraceRun inp1 backtraceStep m st =
        backtraceRun inp2 backtraceStep m st :=
      backtraceRun_rc_one inp1 inp2 hcols h1 h2
    simp only [hseed, hbt]

/-- C6: with no pedigree triples there is a single inheritance pattern
(T = 4^0 = 1) and the recombination cost sequence has no effect: two runs
of the engine that differ only in their (correct-length) recombcost
sequences produce identical results, in particular the same optimal score
and the same index path. -/
theorem c6_no_triples_recomb_irrelevant (inp : DPInput) (r1 r2 : List Nat)
    (htc : inp.triple_count = 0)
    (hl1 : r1.length = inp.colCount) (hl2 : r2.length = inp.colCount) :
    ({ inp with recombcost := r1 } : DPInput).T = 1 ∧
    compute_table { inp with recombcost := r1 } =
      compute_table { inp with recombcost := r2 } := by
  constructor
  · simp [DPInput.T, htc]
  · exact compute_table_rc_one _ _ rfl (by simpa using htc) (by simpa using htc)

/-- Witness for c6_no_triples_recomb_irrelevant at a concrete input. -/
def c6col : ColumnInput := ⟨[0], fun _ => 0, fun _ => 0, fun _ _ => 2⟩

/-- A two-column triple-free instance. -/
def c6inp : DPInput := ⟨0, [9, 9], [c6col, c6col]⟩

/-- Witness for c6_no_triples_recomb_irrelevant at a concrete input. -/
theorem c6_witness :
    ({ c6inp with recombcost := [1, 2] } : DPInput).T = 1 ∧
    compute_table { c6inp with recombcost := [1, 2] } =
      compute_table { c6inp with recombcost := [7, 0] } :=
  c6_no_triples_recomb_irrelevant c6inp [1, 2] [7, 0] rfl (by decide) (by decide)

/-! ## C4 and C3: the checkpointing scheme and the backward sweep -/

/-- Agreement of a (possibly partially released) table store with the
reference store: every table still held is the reference one. -/
def Agree (f g : TblStore) : Prop := ∀ j t, f j = some t → g j = some t

theorem computeColumn_preserve (inp : DPInput) (c : Nat) (st s : TableState)
    (hok : computeColumn inp c st = Except.ok s) (j : Nat) (hj : j ≠ c) :
    s.tables j = st.tables j := by
  unfold computeColumn at hok
  split at hok
  · cases hok; rfl
  · split at hok
    · cases hok
    · cases hok
      exact storeResult_tables_ne inp c st _ j hj

theorem computeColumn_opt (inp : DPInput) (c : Nat) (st s : TableState)
    (hok : computeColumn inp c st = Except.ok s) (hc : c + 1 < inp.colCount) :
    s.opt = st.opt := by
  unfold computeColumn at hok
  split at hok
  · cases hok; rfl
  · split at hok
    · cases hok
    · cases hok
      unfold storeResult
      rw [if_pos hc]

theorem fullUpTo_succ (inp : DPInput) (c : Nat) (st2 : TableState)
    (h : fullUpTo inp (c + 1) = Except.ok st2) :
    ∃ st1, fullUpTo inp c = Except.ok st1 ∧ computeColumn inp c st1 = Except.ok st2 := by
  unfold fullUpTo at h
  split at h
  · cases h
  · rename_i st1 hpre
    exact ⟨st1, hpre, h⟩

theorem fullUpTo_prefix (inp : DPInput) :
    ∀ (m : Nat) (st : TableState), fullUpTo inp m = Except.ok st →
      ∀ c, c ≤ m → ∃ st1, fullUpTo inp c = Except.ok st1 := by
  intro m
  induction m with
  | zero => intro st h c hc; exact ⟨st, by rwa [Nat.le_zero.mp hc]⟩
  | succ m ih =>
    intro st h c hc
    by_cases hcm : c = m + 1
    · exact ⟨st, by rwa [hcm]⟩
    · obtain ⟨st1, hst1, _⟩ := fullUpTo_succ inp m st h
      exact ih st1 hst1 c (by omega)

theorem fullUpTo_none (inp : DPInput) :
    ∀ (c : Nat) (st : TableState), fullUpTo inp c = Except.ok st →
      ∀ j, c ≤ j → st.tables j = none := by
  intro c
  induction c with
  | zero => intro st h j _; cases h; rfl
  | succ c ih =>
    intro st h j hj
    obtain ⟨st1, hst1, hcc⟩ := fullUpTo_succ inp c st h
    rw [computeColumn_preserve inp c st1 st hcc j (by omega)]
    exact ih st1 hst1 j (by omega)

theorem fullUpTo_opt (inp : DPInput) :
    ∀ (c : Nat) (st : TableState), c < inp.colCount →
      fullUpTo inp c = Except.ok st → st.opt = initOpt := by
  intro c
  induction c with
  | zero => intro st _ h; cases h; rfl
  | succ c ih =>
    intro st hc h
    obtain ⟨st1, hst1, hcc⟩ := fullUpTo_succ inp c st h
    rw [computeColumn_opt inp c st1 st hcc hc]
    exact ih st1 (by omega) hst1

theorem fullUpTo_mono (inp : DPInput) :
    ∀ (m c : Nat) (stc stm : TableState), c ≤ m →
      fullUpTo inp c = Except.ok stc → fullUpTo inp m = Except.ok stm →
      ∀ j t, stc.tables j = some t → stm.tables j = some t := by
  intro m
  induction m with
  | zero =>
    intro c stc stm hc hstc hstm j t ht
    rw [Nat.le_zero.mp hc] at hstc
    rw [hstc] at hstm
    cases hstm
    exact ht
  | succ m ih =>
    intro c stc stm hc hstc hstm j t ht
    by_cases hcm : c = m + 1
    · rw [hcm] at hstc
      rw [hstc] at hstm
      cases hstm
      exact ht
    · obtain ⟨st1, hst1, hcc⟩ := fullUpTo_succ inp m stm hstm
      have hjt : st1.tables j = some t := ih c stc st1 (by omega) hstc hst1 j t ht
      by_cases hjm : j = m
      · rw [hjm] at hjt
        rw [fullUpTo_none inp m st1 hst1 m (by omega)] at hjt
        cases hjt
      · rw [computeColumn_preserve inp m st1 stm hcc j hjm]
        exact hjt

/-- The relaxation of the three projection and backtrace columns performed
by one non-final iterator step (lines 420-430), as a function of the three
tables only. -/
def projUpd (T : Nat) (isF : Bool) (prev : Tbl) (col : ColumnInput) (rc : Nat)
    (h : Nat) (pqr : Tbl × Tbl × Tbl) : Tbl × Tbl × Tbl :=
  (List.range T).foldl
    (fun s i =>
      let m := minOverJ T
        (fun j => if isF then 0 else prev (if isF then 0 else col.bwd h) j)
        (col.cost i h) i rc
      if m.1 < s.1 (col.fwd h) i then
        (tblSet s.1 (col.fwd h) i m.1, tblSet s.2.1 (col.fwd h) i h,
         tblSet s.2.2 (col.fwd h) i m.2)
      else s) pqr

theorem stepIndex_false_shape (T : Nat) (isF : Bool) (prev : Tbl)
    (col : ColumnInput) (rc : Nat) (p q r : Tbl) (h : Nat)
    (hg : goodIndexB T col h = true) :
    ∃ P Q R, ∀ o : OptState,
      stepIndex T isF false prev col rc ⟨p, q, r, o⟩ h = Except.ok ⟨P, Q, R, o⟩ :=
  ⟨(projUpd T isF prev col rc h (p, q, r)).1,
   (projUpd T isF prev col rc h (p, q, r)).2.1,
   (projUpd T isF prev col rc h (p, q, r)).2.2,
   fun o => by
    unfold stepIndex
    rw [if_pos hg]
    rfl⟩

theorem coreRun_opt_indep (T : Nat) (isF : Bool) (prev : Tbl)
    (col : ColumnInput) (rc : Nat) :
    ∀ (l : List Nat) (p q r : Tbl) (o1 o2 : OptState) (s : ColSweep),
      coreRun T isF false prev col rc l ⟨p, q, r, o1⟩ = Except.ok s →
      s.opt = o1 ∧
        coreRun T isF false prev col rc l ⟨p, q, r, o2⟩ =
          Except.ok ⟨s.proj, s.ibt, s.tbt, o2⟩ := by
  intro l
  induction l with
  | nil =>
    intro p q r o1 o2 s hok
    cases hok
    exact ⟨rfl, rfl⟩
  | cons a t ih =>
    intro p q r o1 o2 s hok
    cases hg : goodIndexB T col a with
    | false =>
      rw [show coreRun T isF false prev col rc (a :: t) ⟨p, q, r, o1⟩ =
          (match stepIndex T isF false prev col rc ⟨p, q, r, o1⟩ a with
           | Except.error e => Except.error e
           | Except.ok s => coreRun T isF false prev col rc t s) from rfl,
        stepIndex_err T isF false prev col rc ⟨p, q, r, o1⟩ a hg] at hok
      cases hok
    | true =>
      obtain ⟨P, Q, R, hstep⟩ := stepIndex_false_shape T isF prev col rc p q r a hg
      rw [show coreRun T isF false prev col rc (a :: t) ⟨p, q, r, o1⟩ =
          (match stepIndex T isF false prev col rc ⟨p, q, r, o1⟩ a with
           | Except.error e => Except.error e
           | Except.ok s => coreRun T isF false prev col rc t s) from rfl,
        hstep o1] at hok
      obtain ⟨ho, hrun⟩ := ih P Q R o1 o2 s hok
      refine ⟨ho, ?_⟩
      rw [show coreRun T isF false prev col rc (a :: t) ⟨p, q, r, o2⟩ =
          (match stepIndex T isF false prev col rc ⟨p, q, r, o2⟩ a with
           | Except.error e => Except.error e
           | Except.ok s => coreRun T isF false prev col rc t s) from rfl,
        hstep o2]
      exact hrun

theorem computeColumnCore_opt_indep (T : Nat) (isF : Bool) (prev : Tbl)
    (col : ColumnInput) (rc : Nat) (o1 o2 : OptState) (s : ColSweep)
    (hok : computeColumnCore T isF false prev col rc o1 = Except.ok s) :
    s.opt = o1 ∧
      computeColumnCore T isF false prev col rc o2 =
        Except.ok ⟨s.proj, s.ibt, s.tbt, o2⟩ :=
  coreRun_opt_indep T isF prev col rc col.walk
    (constTbl UINT_MAX) (constTbl UINT_MAX) (constTbl UINT_MAX) o1 o2 s hok

theorem computeColumn_some (inp : DPInput) (c : Nat) (st s : TableState)
    (hok : computeColumn inp c st = Except.ok s) (hc : c + 1 < inp.colCount) :
    (s.tables c).isSome = true := by
  unfold computeColumn at hok
  split at hok
  · rename_i t hsome
    cases hok
    rw [hsome]
    rfl
  · split at hok
    · cases hok
    · cases hok
      unfold storeResult
      rw [if_pos hc]
      show (setTable st.tables c _ c).isSome = true
      unfold setTable
      rw [if_pos rfl]
      rfl

/-- The recurrence of the reference forward run: for every stored column
c at least 1, the recorded tables are exactly the outcome of the column
computation against the previous recorded projection column. -/
theorem fullState_rec (inp : DPInput) (fs : TableState)
    (hfs : fullState inp = Except.ok fs) (c : Nat) (hc0 : 1 ≤ c)
    (hc : c + 1 < inp.colCount) :
    ∃ s, computeColumnCore inp.T (c == 0) (c + 1 == inp.colCount)
        (prevProjOf fs c) (inp.colAt c) (inp.rcAt c) initOpt = Except.ok s ∧
      fs.tables c = some ⟨s.proj, s.ibt, s.tbt⟩ := by
  obtain ⟨st2, hst2⟩ := fullUpTo_prefix inp inp.colCount fs hfs (c + 1) (by omega)
  obtain ⟨st1, hst1, hcc⟩ := fullUpTo_succ inp c st2 hst2
  have hnone : st1.tables c = none := fullUpTo_none inp c st1 hst1 c (by omega)
  have hopt : st1.opt = initOpt := fullUpTo_opt inp c st1 (by omega) hst1
  -- the previous projection column recorded by the reference run
  have hprev : prevProjOf st1 c = prevProjOf fs c := by
    unfold prevProjOf
    cases hp : st1.tables (c - 1) with
    | some t =>
      rw [fullUpTo_mono inp inp.colCount c st1 fs (by omega) hst1 hfs (c - 1) t hp]
    | none =>
      exfalso
      obtain ⟨st0, hst0, hcc0⟩ := fullUpTo_succ inp (c - 1)
        st1 (by rw [show c - 1 + 1 = c from by omega]; exact hst1)
      have hsome := computeColumn_some inp (c - 1) st0 st1 hcc0 (by omega)
      rw [hp] at hsome
      cases hsome
  unfold computeColumn at hcc
  rw [hnone] at hcc
  split at hcc
  · rename_i x t heq
    cases heq
  · split at hcc
    · cases hcc
    rename_i s hcore
    cases hcc
    rw [hprev, hopt] at hcore
    refine ⟨s, hcore, ?_⟩
    have hct : (storeResult inp c st1 s).tables c = some ⟨s.proj, s.ibt, s.tbt⟩ := by
      unfold storeResult
      rw [if_pos hc]
      show setTable st1.tables c _ c = _
      unfold setTable
      rw [if_pos rfl]
    exact fullUpTo_mono inp inp.colCount (c + 1) _ fs (by omega) hst2 hfs c _ hct

theorem storeResult_tables_self (inp : DPInput) (c : Nat) (st : TableState)
    (s : ColSweep) (hc : c + 1 < inp.colCount) :
    (storeResult inp c st s).tables c = some ⟨s.proj, s.ibt, s.tbt⟩ := by
  unfold storeResult
  rw [if_pos hc]
  show setTable st.tables c _ c = _
  unfold setTable
  rw [if_pos rfl]

theorem storeResult_opt_of_lt (inp : DPInput) (c : Nat) (st : TableState)
    (s : ColSweep) (hc : c + 1 < inp.colCount) :
    (storeResult inp c st s).opt = st.opt := by
  unfold storeResult
  rw [if_pos hc]

/-- Recovery reproduces the reference tables: starting from any state whose
held tables all agree with the reference run and whose column j0 is held
(and hence is the reference one), recomputing columns j0+1, ..., j0+m in
order succeeds and leaves column j0+m holding exactly the table of the
reference run, with agreement maintained and the running optimum
untouched. -/
theorem recoverCols_full (inp : DPInput) (fs : TableState)
    (hfs : fullState inp = Except.ok fs) :
    ∀ (m j0 : Nat) (st : TableState),
      Agree st.tables fs.tables →
      st.tables j0 = fs.tables j0 →
      (fs.tables j0).isSome = true →
      (∀ j, j0 < j → j ≤ j0 + m → j + 1 < inp.colCount) →
      ∃ st', recoverCols inp j0 m st = Except.ok st' ∧
        Agree st'.tables fs.tables ∧
        st'.tables (j0 + m) = fs.tables (j0 + m) ∧
        (fs.tables (j0 + m)).isSome = true ∧
        st'.opt = st.opt := by
  intro m
  induction m with
  | zero =>
    intro j0 st hagree heq hsome _
    exact ⟨st, rfl, hagree, by simpa using heq, by simpa using hsome, rfl⟩
  | succ m ih =>
    intro j0 st hagree heq hsome hbnd
    have hb1 : (j0 + 1) + 1 < inp.colCount := hbnd (j0 + 1) (by omega) (by omega)
    cases hmem : st.tables (j0 + 1) with
    | some t =>
      have hfst : fs.tables (j0 + 1) = some t := hagree _ t hmem
      have hcc : computeColumn inp (j0 + 1) st = Except.ok st := by
        unfold computeColumn
        rw [hmem]
      obtain ⟨st', h1, h2, h3, h4, h5⟩ := ih (j0 + 1) st hagree
        (by rw [hmem, hfst]) (by rw [hfst]; rfl)
        (fun j hj1 hj2 => hbnd j (by omega) (by omega))
      refine ⟨st', ?_, h2, ?_, ?_, h5⟩
      · unfold recoverCols
        rw [hcc]
        exact h1
      · rw [show j0 + (m + 1) = j0 + 1 + m from by omega]
        exact h3
      · rw [show j0 + (m + 1) = j0 + 1 + m from by omega]
        exact h4
    | none =>
      obtain ⟨s, hcore, hfst⟩ := fullState_rec inp fs hfs (j0 + 1) (by omega) hb1
      have hL : ((j0 + 1) + 1 == inp.colCount) = false := by
        simp only [beq_eq_false_iff_ne, ne_eq]
        omega
      rw [hL] at hcore
      obtain ⟨hso, hcore2⟩ := computeColumnCore_opt_indep inp.T ((j0 + 1) == 0)
        (prevProjOf fs (j0 + 1)) (inp.colAt (j0 + 1)) (inp.rcAt (j0 + 1))
        initOpt st.opt s hcore
      have hpp : prevProjOf st (j0 + 1) = prevProjOf fs (j0 + 1) := by
        unfold prevProjOf
        rw [show j0 + 1 - 1 = j0 from rfl, heq]
      have hcc : computeColumn inp (j0 + 1) st =
          Except.ok (storeResult inp (j0 + 1) st ⟨s.proj, s.ibt, s.tbt, st.opt⟩) := by
        unfold computeColumn
        rw [hmem, hpp, hL, hcore2]
      set st1 := storeResult inp (j0 + 1) st ⟨s.proj, s.ibt, s.tbt, st.opt⟩ with hst1
      have hself : st1.tables (j0 + 1) = some ⟨s.proj, s.ibt, s.tbt⟩ :=
        storeResult_tables_self inp (j0 + 1) st _ hb1
      have hagree1 : Agree st1.tables fs.tables := by
        intro j t ht
        by_cases hj : j = j0 + 1
        · rw [hj] at ht
          rw [hself] at ht
          cases ht
          rw [hj]
          exact hfst
        · rw [storeResult_tables_ne inp (j0 + 1) st _ j hj] at ht
          exact hagree j t ht
      have hopt1 : st1.opt = st.opt := storeResult_opt_of_lt inp (j0 + 1) st _ hb1
      obtain ⟨st', h1, h2, h3, h4, h5⟩ := ih (j0 + 1) st1 hagree1
        (by rw [hself, hfst]) (by rw [hfst]; rfl)
        (fun j hj1 hj2 => hbnd j (by omega) (by omega))
      refine ⟨st', ?_, h2, ?_, ?_, by rw [h5, hopt1]⟩
      · unfold recoverCols
        rw [hcc]
        exact h1
      · rw [show j0 + (m + 1) = j0 + 1 + m from by omega]
        exact h3
      · rw [show j0 + (m + 1) = j0 + 1 + m from by omega]
        exact h4

/-- C4: whenever the backward sweep finds a column's tables released, the
recovery loop that re-runs the forward computation from the nearest prior
checkpoint j0 = (c-1)/k*k through column c-1 reproduces tables that are
exactly (bit-identical to) the tables of the reference forward run - the
ones originally computed and dropped - for any state whose surviving
tables agree with that reference run and whose checkpoint column is still
held (which the C++ asserts). -/
theorem c4_recovered_tables_identical (inp : DPInput) (fs st : TableState)
    (c : Nat) (hfs : fullState inp = Except.ok fs)
    (hagree : Agree st.tables fs.tables)
    (hc1 : 1 ≤ c) (hc2 : c < inp.colCount)
    (hcp : (st.tables ((c - 1) / inp.k * inp.k)).isSome = true) :
    ∃ st', recoverCols inp ((c - 1) / inp.k * inp.k)
        (c - 1 - (c - 1) / inp.k * inp.k) st = Except.ok st' ∧
      st'.tables (c - 1) = fs.tables (c - 1) ∧
      (fs.tables (c - 1)).isSome = true ∧
      Agree st'.tables fs.tables := by
  obtain ⟨t, ht⟩ := Option.isSome_iff_exists.mp hcp
  have hfj0 : fs.tables ((c - 1) / inp.k * inp.k) = some t := hagree _ t ht
  have hj0le : (c - 1) / inp.k * inp.k ≤ c - 1 := Nat.div_mul_le_self _ _
  obtain ⟨st', h1, h2, h3, h4, h5⟩ := recoverCols_full inp fs hfs
    (c - 1 - (c - 1) / inp.k * inp.k) ((c - 1) / inp.k * inp.k) st hagree
    (by rw [ht, hfj0]) (by rw [hfj0]; rfl)
    (fun j hj1 hj2 => by omega)
  have harith : (c - 1) / inp.k * inp.k + (c - 1 - (c - 1) / inp.k * inp.k) =
      c - 1 := by omega
  rw [harith] at h3 h4
  exact ⟨st', h1, h3, h4, h2⟩

/-- A four-column instance (checkpoint stride k = 2) for exercising the
recovery path. -/
def tinyCol4 (v : Nat) : ColumnInput := ⟨[0], fun _ => 0, fun _ => 0, fun _ _ => v⟩

/-- Four columns with distinct per-column costs. -/
def tiny4 : DPInput := ⟨0, [0, 0, 0, 0], [tinyCol4 1, tinyCol4 2, tinyCol4 3, tinyCol4 4]⟩

/-- The reference forward run of tiny4. -/
def tiny4FS : TableState :=
  match fullState tiny4 with
  | Except.ok s => s
  | Except.error _ => initTables

theorem tiny4FS_ok : fullState tiny4 = Except.ok tiny4FS := rfl

/-- tiny4's state after releasing every column but checkpoint 0. -/
def tiny4drop : TableState :=
  ⟨fun j => if j = 0 then tiny4FS.tables 0 else none, tiny4FS.opt⟩

theorem tiny4drop_agree : Agree tiny4drop.tables tiny4FS.tables := by
  intro j t ht
  have ht' : (if j = 0 then tiny4FS.tables 0 else none) = some t := ht
  by_cases hj : j = 0
  · rw [if_pos hj] at ht'
    rw [hj]
    exact ht'
  · rw [if_neg hj] at ht'
    cases ht'

/-- Witness for c4_recovered_tables_identical at a concrete input: column 1
of tiny4 was released and is recovered from checkpoint 0. -/
theorem c4_witness :
    ∃ st', recoverCols tiny4 ((2 - 1) / tiny4.k * tiny4.k)
        (2 - 1 - (2 - 1) / tiny4.k * tiny4.k) tiny4drop = Except.ok st' ∧
      st'.tables (2 - 1) = tiny4FS.tables (2 - 1) ∧
      (tiny4FS.tables (2 - 1)).isSome = true ∧
      Agree st'.tables tiny4FS.tables :=
  c4_recovered_tables_identical tiny4 tiny4FS tiny4drop 2 tiny4FS_ok
    tiny4drop_agree (by decide) (by decide) (by rfl)

theorem agree_dropBlock (inp : DPInput) (i : Nat) (tabs : TblStore)
    (fsT : TblStore) (h : Agree tabs fsT) : Agree (dropBlock inp i tabs) fsT := by
  intro j t ht
  unfold dropBlock at ht
  by_cases hc : i ≤ j ∧ j < i + inp.k ∧ j < inp.colCount - 1
  · rw [if_pos hc] at ht
    cases ht
  · rw [if_neg hc] at ht
    exact h j t ht

theorem tripOf_some (ts : TableState) (i : Nat) (t : TblTriple)
    (ht : ts.tables (i - 1) = some t) : tripOf ts i = t := by
  unfold tripOf
  rw [ht]

theorem backtraceStep_run (inp : DPInput) (st : BTState) (i : Nat)
    (ts : TableState) (t : TblTriple)
    (hrun : (if (st.ts.tables (i - 1)).isSome then Except.ok st.ts
             else recoverCols inp ((i - 1) / inp.k * inp.k)
               (i - 1 - (i - 1) / inp.k * inp.k) st.ts) = Except.ok ts)
    (ht : ts.tables (i - 1) = some t) :
    backtraceStep inp st i = Except.ok
      ⟨⟨if i % inp.k = 0 then dropBlock inp i ts.tables else ts.tables, ts.opt⟩,
       ⟨t.ibt ((inp.colAt i).bwd st.v.index) st.prev, st.prev⟩,
       t.tbt ((inp.colAt i).bwd st.v.index) st.prev,
       st.path.set (i - 1) ⟨t.ibt ((inp.colAt i).bwd st.v.index) st.prev, st.prev⟩⟩ := by
  unfold backtraceStep
  rw [hrun]
  show Except.ok
      (⟨⟨if i % inp.k = 0 then dropBlock inp i ts.tables else ts.tables, ts.opt⟩,
       ⟨(tripOf ts i).ibt ((inp.colAt i).bwd st.v.index) st.prev, st.prev⟩,
       (tripOf ts i).tbt ((inp.colAt i).bwd st.v.index) st.prev,
       st.path.set (i - 1)
         ⟨(tripOf ts i).ibt ((inp.colAt i).bwd st.v.index) st.prev, st.prev⟩⟩ :
        BTState) = _
  rw [tripOf_some ts i t ht]

/-- C3 (amended): at backward-sweep iteration i the engine writes
index_path[i-1] = new_v with new_v.index the index backtrace entry at
(backward projection of v.index, prev_inheritance) of the original tables
of column i-1 (recovered bit-identically if released) and
new_v.inheritance = prev_inheritance; the updated prev_inheritance is the
transmission backtrace entry at that same row and at the freshly assigned
new_v.inheritance = old prev_inheritance (line 249 runs after line 248
overwrote v.inheritance_value), not at the inheritance value of the
already-chosen entry for column i as the claim reads - see the
counterexample. -/
theorem c3_backward_update (inp : DPInput) (fs : TableState) (st : BTState)
    (i : Nat) (hfs : fullState inp = Except.ok fs)
    (hagree : Agree st.ts.tables fs.tables)
    (h1 : 1 ≤ i) (h2 : i < inp.colCount)
    (hcp : (st.ts.tables ((i - 1) / inp.k * inp.k)).isSome = true) :
    ∃ st' trip, backtraceStep inp st i = Except.ok st' ∧
      fs.tables (i - 1) = some trip ∧
      st'.v = ⟨trip.ibt ((inp.colAt i).bwd st.v.index) st.prev, st.prev⟩ ∧
      st'.prev = trip.tbt ((inp.colAt i).bwd st.v.index) st.prev ∧
      st'.path = st.path.set (i - 1) st'.v ∧
      Agree st'.ts.tables fs.tables := by
  by_cases hs : (st.ts.tables (i - 1)).isSome = true
  · obtain ⟨t, ht⟩ := Option.isSome_iff_exists.mp hs
    have hfst : fs.tables (i - 1) = some t := hagree _ t ht
    have hstep := backtraceStep_run inp st i st.ts t (by rw [if_pos hs]) ht
    refine ⟨_, t, hstep, hfst, rfl, rfl, rfl, ?_⟩
    show Agree (if i % inp.k = 0 then dropBlock inp i st.ts.tables
      else st.ts.tables) fs.tables
    by_cases hdrop : i % inp.k = 0
    · rw [if_pos hdrop]
      exact agree_dropBlock inp i st.ts.tables fs.tables hagree
    · rw [if_neg hdrop]
      exact hagree
  · obtain ⟨t, ht⟩ := Option.isSome_iff_exists.mp hcp
    have hfj0 : fs.tables ((i - 1) / inp.k * inp.k) = some t := hagree _ t ht
    have hj0le : (i - 1) / inp.k * inp.k ≤ i - 1 := Nat.div_mul_le_self _ _
    obtain ⟨ts', hrec, hagree', heq, hsome', hopt⟩ := recoverCols_full inp fs hfs
      (i - 1 - (i - 1) / inp.k * inp.k) ((i - 1) / inp.k * inp.k) st.ts hagree
      (by rw [ht, hfj0]) (by rw [hfj0]; rfl)
      (fun j hj1 hj2 => by omega)
    have harith : (i - 1) / inp.k * inp.k + (i - 1 - (i - 1) / inp.k * inp.k) =
        i - 1 := by omega
    rw [harith] at heq hsome'
    obtain ⟨trip, htrip⟩ := Option.isSome_iff_exists.mp hsome'
    have htrip' : ts'.tables (i - 1) = some trip := by rw [heq, htrip]
    have hstep := backtraceStep_run inp st i ts' trip
      (by rw [if_neg hs]; exact hrec) htrip'
    refine ⟨_, trip, hstep, htrip, rfl, rfl, rfl, ?_⟩
    show Agree (if i % inp.k = 0 then dropBlock inp i ts'.tables
      else ts'.tables) fs.tables
    by_cases hdrop : i % inp.k = 0
    · rw [if_pos hdrop]
      exact agree_dropBlock inp i ts'.tables fs.tables hagree'
    · rw [if_neg hdrop]
      exact hagree'

/-- One-partitioning columns (no active reads) whose cost depends only on
the inheritance pattern. -/
def cexCol (cs : List Nat) : ColumnInput :=
  ⟨[0], fun _ => 0, fun _ => 0, fun i _ => cs.getD i UINT_MAX⟩

/-- A three-column, one-triple (T = 4) instance on which the optimal
transmission value (0) differs from the previous transmission value (1)
at the seed of the backward sweep. -/
def cex3 : DPInput := ⟨1, [1, 10, 1],
  [cexCol [0, 3, 100, 100], cexCol [5, 0, 100, 100], cexCol [0, 100, 100, 100]]⟩

/-- Counterexample for C3 as stated: on cex3 the engine's backward sweep
(which consults the transmission backtrace row at the freshly assigned
new_v.inheritance, line 249 after line 248) produces the index path
[(0,1), (0,1), (0,0)], while the backward sweep that follows the claim's
wording (consulting the row at the already-chosen column-i entry's
inheritance value) produces [(0,0), (0,1), (0,0)]: the paths differ at
column 0, so the claim's equations do not describe the code. -/
theorem c3_counterexample :
    compute_table cex3 =
      Except.ok ⟨4, [⟨0, 1⟩, ⟨0, 1⟩, ⟨0, 0⟩]⟩ ∧
    compute_tableSpec cex3 =
      Except.ok ⟨4, [⟨0, 0⟩, ⟨0, 1⟩, ⟨0, 0⟩]⟩ ∧
    ((⟨0, 1⟩ : IndexInh) ≠ ⟨0, 0⟩) :=
  ⟨by rfl, by rfl, by decide⟩

/-- A backward-sweep state over tiny4 at iteration 2, with column 1
released. -/
def c3st : BTState := ⟨tiny4drop, ⟨0, 0⟩, 0, List.replicate 4 ⟨0, 0⟩⟩

/-- Witness for c3_backward_update at a concrete input. -/
theorem c3_witness :
    ∃ st' trip, backtraceStep tiny4 c3st 2 = Except.ok st' ∧
      tiny4FS.tables (2 - 1) = some trip ∧
      st'.v = ⟨trip.ibt ((tiny4.colAt 2).bwd c3st.v.index) c3st.prev, c3st.prev⟩ ∧
      st'.prev = trip.tbt ((tiny4.colAt 2).bwd c3st.v.index) c3st.prev ∧
      st'.path = c3st.path.set (2 - 1) st'.v ∧
      Agree st'.ts.tables tiny4FS.tables :=
  c3_backward_update tiny4 tiny4FS c3st 2 tiny4FS_ok tiny4drop_agree
    (by decide) (by decide) (by rfl)

/-- The forward sweep with releasing agrees with the reference run: every
table it still holds is the reference one, the running optimum coincides,
and the most recently computed column is held identically.  This is what
makes the agreement hypotheses of the recovery statements true of the
engine's own backward sweep. -/
theorem forwardUpTo_agree (inp : DPInput) :
    ∀ (c : Nat) (stf : TableState), forwardUpTo inp c = Except.ok stf →
      ∃ fsc, fullUpTo inp c = Except.ok fsc ∧ Agree stf.tables fsc.tables ∧
        stf.opt = fsc.opt ∧ stf.tables (c - 1) = fsc.tables (c - 1) := by
  intro c
  induction c with
  | zero =>
    intro stf h
    cases h
    exact ⟨initTables, rfl, fun j t ht => ht, rfl, rfl⟩
  | succ c ih =>
    intro stf h
    unfold forwardUpTo at h
    split at h
    · cases h
    · rename_i st0 hpre
      obtain ⟨fs0, hfs0, hagree, hopt, hprev⟩ := ih st0 hpre
      unfold forwardStep at h
      split at h
      · cases h
      · rename_i s1 hcc
        cases h
        have hn0 : st0.tables c = none := forwardUpTo_none inp c st0 hpre c (le_refl c)
        have hnf : fs0.tables c = none := fullUpTo_none inp c fs0 hfs0 c (le_refl c)
        have hpp : prevProjOf st0 c = prevProjOf fs0 c := by
          unfold prevProjOf
          rw [hprev]
        unfold computeColumn at hcc
        rw [hn0, hpp, hopt] at hcc
        split at hcc
        · rename_i x t heq
          cases heq
        · split at hcc
          · cases hcc
          rename_i s hcore
          cases hcc
          have hccf : computeColumn inp c fs0 = Except.ok (storeResult inp c fs0 s) := by
            unfold computeColumn
            rw [hnf, hcore]
          have hful : fullUpTo inp (c + 1) = Except.ok (storeResult inp c fs0 s) := by
            have hstepf : fullUpTo inp (c + 1) = computeColumn inp c fs0 := by
              unfold fullUpTo
              rw [hfs0]
            rw [hstepf, hccf]
          have hnodrop : ∀ j, j ≠ c - 1 ∨ ¬ (1 < inp.k ∧ 0 < c ∧ (c - 1) % inp.k ≠ 0) →
              (dropForward inp c (storeResult inp c st0 s)).tables j =
                (storeResult inp c st0 s).tables j := by
            intro j hcase
            unfold dropForward
            by_cases hd : 1 < inp.k ∧ 0 < c ∧ (c - 1) % inp.k ≠ 0
            · rw [if_pos hd]
              show setTable _ (c - 1) none j = _
              unfold setTable
              rcases hcase with hne | habs
              · rw [if_neg hne]
              · exact absurd hd habs
            · rw [if_neg hd]
          refine ⟨storeResult inp c fs0 s, hful, ?_, ?_, ?_⟩
          · intro j t ht
            have ht' : (storeResult inp c st0 s).tables j = some t := by
              unfold dropForward at ht
              by_cases hd : 1 < inp.k ∧ 0 < c ∧ (c - 1) % inp.k ≠ 0
              · rw [if_pos hd] at ht
                have ht2 : setTable (storeResult inp c st0 s).tables (c - 1) none j =
                    some t := ht
                unfold setTable at ht2
                by_cases hj : j = c - 1
                · rw [if_pos hj] at ht2
                  cases ht2
                · rw [if_neg hj] at ht2
                  exact ht2
              · rw [if_neg hd] at ht
                exact ht
            by_cases hj : j = c
            · subst hj
              by_cases hcl : j + 1 < inp.colCount
              · rw [storeResult_tables_self inp j st0 s hcl] at ht'
                rw [storeResult_tables_self inp j fs0 s hcl]
                exact ht'
              · unfold storeResult at ht'
                rw [if_neg hcl] at ht'
                rw [hn0] at ht'
                cases ht'
            · rw [storeResult_tables_ne inp c st0 s j hj] at ht'
              rw [storeResult_tables_ne inp c fs0 s j hj]
              exact hagree j t ht'
          · have hdopt : (dropForward inp c (storeResult inp c st0 s)).opt =
                (storeResult inp c st0 s).opt := by
              unfold dropForward
              by_cases hd : 1 < inp.k ∧ 0 < c ∧ (c - 1) % inp.k ≠ 0
              · rw [if_pos hd]
              · rw [if_neg hd]
            rw [hdopt]
            unfold storeResult
            by_cases hcl : c + 1 < inp.colCount
            · rw [if_pos hcl, if_pos hcl]
              exact hopt
            · rw [if_neg hcl, if_neg hcl]
          · have hc1 : (dropForward inp c (storeResult inp c st0 s)).tables c =
                (storeResult inp c st0 s).tables c := by
              apply hnodrop
              by_cases hd : 1 < inp.k ∧ 0 < c ∧ (c - 1) % inp.k ≠ 0
              · left
                omega
              · right
                exact hd
            rw [show c + 1 - 1 = c from rfl, hc1]
            by_cases hcl : c + 1 < inp.colCount
            · rw [storeResult_tables_self inp c st0 s hcl,
                storeResult_tables_self inp c fs0 s hcl]
            · unfold storeResult
              rw [if_neg hcl, if_neg hcl, hn0, hnf]

/-- The engine's full forward sweep agrees with the reference run. -/
theorem forwardSweep_agree (inp : DPInput) (st : TableState)
    (h : forwardSweep inp = Except.ok st) :
    ∃ fs, fullState inp = Except.ok fs ∧ Agree st.tables fs.tables ∧
      st.opt = fs.opt := by
  obtain ⟨fs, h1, h2, h3, _⟩ := forwardUpTo_agree inp inp.colCount st h
  exact ⟨fs, h1, h2, h3⟩
